import Mathlib

/-!
Verification development for the tine-tree interval-set engine
(`src/tine.rs`, `src/tine_tree.rs`).

The `Tine` and `TineTree` types and all their operations are translated
directly from the two source files.  The collaborator types `Bound`,
`RawInterval` and `Split` live outside the provided sources, so they are
modelled from the specification (sections 2, 3, 4.1 and 4.2).

Modelling conventions:
* `BTreeSet<Tine<T>>` is modelled as a list sorted strictly by the `Tine`
  ordering (`Tine.cmp`), with `sInsert`, `sTake`, `sSplitOff` mirroring
  `BTreeSet::insert`, `BTreeSet::take` and `BTreeSet::split_off`.
* Release-build semantics: `debug_assert!` lines are no-ops; the
  `panic!` / `unreachable!` / `Option::expect` branches are modelled by
  returning `none` at an outer `Option` layer.  In particular
  `Tine.union`/`Tine.intersect`/`Tine.minus` return
  `Option (Option (Tine T))`: the outer layer is the `unreachable!`
  catch-all arm, the inner layer is boundary annihilation.
* Iterators are modelled by an explicit state (`RawIntervalIter`) with a
  step function; collection uses fuel `length + 2`, which is always
  sufficient because every emitted interval consumes at least one stored
  tine.  The same step function models both `RawIntervalIter` and the
  owning `IntoIter`, whose bodies are textually identical in the source.
-/

set_option maxHeartbeats 1000000

/-- Modelled from the spec: `Bound<T>` has variants `Include(T)`,
`Exclude(T)`, `Infinite` (spec section 3; `bound.rs` is not under `src/`). -/
inductive Bound (T : Type) where
  | Include (t : T)
  | Exclude (t : T)
  | Infinite
deriving DecidableEq, Repr

namespace Bound

/-- Modelled from the spec: extract a reference to the inner value,
`none` for `Infinite`. -/
def as_ref {T : Type} : Bound T → Option T
  | Include t => some t
  | Exclude t => some t
  | Infinite => none

end Bound

/-- Modelled from the spec: the ten canonical `RawInterval` shapes
(spec sections 2 and 3; `raw_interval.rs` is not under `src/`). -/
inductive RawInterval (T : Type) where
  | Empty
  | Point (p : T)
  | Open (l r : T)
  | LeftOpen (l r : T)
  | RightOpen (l r : T)
  | Closed (l r : T)
  | UpTo (r : T)
  | UpFrom (l : T)
  | To (r : T)
  | From (l : T)
  | Full
deriving DecidableEq, Repr

namespace RawInterval

variable {T : Type}

/-- Modelled from the spec: `is_empty` is a shape test (spec 4.1). -/
def is_empty : RawInterval T → Bool
  | Empty => true
  | _ => false

/-- Modelled from the spec: `is_full` is a shape test (spec 4.1). -/
def is_full : RawInterval T → Bool
  | Full => true
  | _ => false

/-- Modelled from the spec: membership respects inclusion/exclusion and
infinity; `Empty` contains nothing, `Full` everything (spec 4.1). -/
def contains [LinearOrder T] (iv : RawInterval T) (point : T) : Bool :=
  match iv with
  | Empty => false
  | Point p => decide (point = p)
  | Open l r => decide (l < point ∧ point < r)
  | LeftOpen l r => decide (l < point ∧ point ≤ r)
  | RightOpen l r => decide (l ≤ point ∧ point < r)
  | Closed l r => decide (l ≤ point ∧ point ≤ r)
  | UpTo r => decide (point < r)
  | UpFrom l => decide (l < point)
  | To r => decide (point ≤ r)
  | From l => decide (l ≤ point)
  | Full => true

/-- Modelled from the spec: the normalizing constructor `new(lb, ub)`
maps any pair of bounds to the unique canonical shape; pairs with
`l > r` and open/half-open pairs with `l = r` normalize to `Empty`,
and `Closed(l, l)` normalizes to `Point(l)` (spec section 3). -/
def new [LinearOrder T] : Bound T → Bound T → RawInterval T
  | .Infinite, .Infinite => Full
  | .Infinite, .Include r => To r
  | .Infinite, .Exclude r => UpTo r
  | .Include l, .Infinite => From l
  | .Exclude l, .Infinite => UpFrom l
  | .Include l, .Include r =>
      if l < r then Closed l r else if l = r then Point l else Empty
  | .Include l, .Exclude r => if l < r then RightOpen l r else Empty
  | .Exclude l, .Include r => if l < r then LeftOpen l r else Empty
  | .Exclude l, .Exclude r => if l < r then Open l r else Empty

/-- Modelled from the spec: the lower bound of each nonempty shape,
`none` for `Empty` (spec sections 3 and 4.1). -/
def lower_bound_of : RawInterval T → Option (Bound T)
  | Empty => none
  | Point p => some (.Include p)
  | Open l _ => some (.Exclude l)
  | LeftOpen l _ => some (.Exclude l)
  | RightOpen l _ => some (.Include l)
  | Closed l _ => some (.Include l)
  | UpTo _ => some .Infinite
  | UpFrom l => some (.Exclude l)
  | To _ => some .Infinite
  | From l => some (.Include l)
  | Full => some .Infinite

/-- Modelled from the spec: the upper bound of each nonempty shape,
`none` for `Empty` (spec sections 3 and 4.1). -/
def upper_bound_of : RawInterval T → Option (Bound T)
  | Empty => none
  | Point p => some (.Include p)
  | Open _ r => some (.Exclude r)
  | LeftOpen _ r => some (.Include r)
  | RightOpen _ r => some (.Exclude r)
  | Closed _ r => some (.Include r)
  | UpTo r => some (.Exclude r)
  | UpFrom _ => some .Infinite
  | To r => some (.Include r)
  | From _ => some .Infinite
  | Full => some .Infinite

/-- Modelled from the spec: the more restrictive of two lower bounds
(`Infinite` is weakest; at equal values `Exclude` dominates). -/
def maxLower [LinearOrder T] : Bound T → Bound T → Bound T
  | .Infinite, b => b
  | b, .Infinite => b
  | .Include a, .Include b => if a ≤ b then .Include b else .Include a
  | .Include a, .Exclude b => if a ≤ b then .Exclude b else .Include a
  | .Exclude a, .Include b => if b ≤ a then .Exclude a else .Include b
  | .Exclude a, .Exclude b => if a ≤ b then .Exclude b else .Exclude a

/-- Modelled from the spec: the more restrictive of two upper bounds
(`Infinite` is weakest; at equal values `Exclude` dominates). -/
def minUpper [LinearOrder T] : Bound T → Bound T → Bound T
  | .Infinite, b => b
  | b, .Infinite => b
  | .Include a, .Include b => if b ≤ a then .Include b else .Include a
  | .Include a, .Exclude b => if b ≤ a then .Exclude b else .Include a
  | .Exclude a, .Include b => if a ≤ b then .Exclude a else .Include b
  | .Exclude a, .Exclude b => if b ≤ a then .Exclude b else .Exclude a

/-- Modelled from the spec: the canonical intersection of two single
intervals; disjoint inputs yield `Empty` (spec 4.1). -/
def intersect [LinearOrder T] (a b : RawInterval T) : RawInterval T :=
  match a.lower_bound_of, a.upper_bound_of, b.lower_bound_of, b.upper_bound_of with
  | some la, some ua, some lb, some ub => new (maxLower la lb) (minUpper ua ub)
  | _, _, _, _ => Empty

/-- Modelled from the spec: `closure` converts every finite excluded
endpoint to an included one; `Empty`, `Full` and points unchanged (spec 4.1). -/
def closure : RawInterval T → RawInterval T
  | Empty => Empty
  | Point p => Point p
  | Open l r => Closed l r
  | LeftOpen l r => Closed l r
  | RightOpen l r => Closed l r
  | Closed l r => Closed l r
  | UpTo r => To r
  | UpFrom l => From l
  | To r => To r
  | From l => From l
  | Full => Full

/-- Modelled from the spec: the documented invariants of the
`RawInterval` data type — every two-valued shape requires `l < r`
(equal endpoints are normalized to `Point` or `Empty`) (spec section 3). -/
def validB [LinearOrder T] : RawInterval T → Bool
  | Open l r => decide (l < r)
  | LeftOpen l r => decide (l < r)
  | RightOpen l r => decide (l < r)
  | Closed l r => decide (l < r)
  | _ => true

end RawInterval

/-- Modelled from the spec: `Split` holds zero, one, or two values
(spec 4.2; `utilities.rs` is not under `src/`). -/
inductive Split (A : Type) where
  | Zero
  | One (a : A)
  | Two (a b : A)
deriving DecidableEq, Repr

/-- `Tine<T>`: a lower bound, combined point bound, or upper bound of an
interval (`tine.rs`). -/
inductive Tine (T : Type) where
  | Lower (b : Bound T)
  | Point (b : Bound T)
  | Upper (b : Bound T)
deriving DecidableEq, Repr

namespace Tine

variable {T : Type}

/-- `Tine::from_raw_interval` (`tine.rs` lines 49-64). -/
def from_raw_interval : RawInterval T → Split (Tine T)
  | .Empty => .Zero
  | .Point p => .One (Point (.Include p))
  | .Open l r => .Two (Lower (.Exclude l)) (Upper (.Exclude r))
  | .LeftOpen l r => .Two (Lower (.Exclude l)) (Upper (.Include r))
  | .RightOpen l r => .Two (Lower (.Include l)) (Upper (.Exclude r))
  | .Closed l r => .Two (Lower (.Include l)) (Upper (.Include r))
  | .UpTo r => .Two (Lower .Infinite) (Upper (.Exclude r))
  | .UpFrom l => .Two (Lower (.Exclude l)) (Upper .Infinite)
  | .To r => .Two (Lower .Infinite) (Upper (.Include r))
  | .From l => .Two (Lower (.Include l)) (Upper .Infinite)
  | .Full => .Two (Lower .Infinite) (Upper .Infinite)

/-- `Tine::is_lower_bound` (`tine.rs` lines 67-73). -/
def is_lower_bound : Tine T → Bool
  | Lower _ => true
  | Point (.Exclude _) => true
  | _ => false

/-- `Tine::is_upper_bound` (`tine.rs` lines 76-82). -/
def is_upper_bound : Tine T → Bool
  | Upper _ => true
  | Point (.Exclude _) => true
  | _ => false

/-- `Tine::is_point_include` (`tine.rs` lines 85-90). -/
def is_point_include : Tine T → Bool
  | Point (.Include _) => true
  | _ => false

/-- `Tine::is_point_exclude` (`tine.rs` lines 94-99). -/
def is_point_exclude : Tine T → Bool
  | Point (.Exclude _) => true
  | _ => false

/-- `Tine::as_ref` (`tine.rs` lines 103-109). -/
def as_ref : Tine T → Option T
  | Lower x => x.as_ref
  | Point x => x.as_ref
  | Upper x => x.as_ref

/-- `Tine::into_inner` (`tine.rs` lines 112-118). -/
def into_inner : Tine T → Bound T
  | Lower x => x
  | Point x => x
  | Upper x => x

/-- `Tine::union` (`tine.rs` lines 122-167), release semantics: the
`debug_assert!` is a no-op, the `unreachable!` catch-all arm is the outer
`none`; the inner `none` is boundary annihilation. -/
def union : Tine T → Tine T → Option (Option (Tine T))
  | Lower (.Include l), Lower (.Exclude _) => some (some (Lower (.Include l)))
  | Lower (.Exclude l), Lower (.Include _) => some (some (Lower (.Include l)))
  | Lower lb, Lower _ => some (some (Lower lb))

  | Lower (.Include l), Point (.Include _) => some (some (Lower (.Include l)))
  | Lower (.Include _), Point (.Exclude _) => some none
  | Lower (.Exclude l), Point (.Include _) => some (some (Lower (.Include l)))
  | Lower (.Exclude l), Point (.Exclude _) => some (some (Point (.Exclude l)))

  | Lower (.Include _), Upper (.Include _) => some none
  | Lower (.Include _), Upper (.Exclude _) => some none
  | Lower (.Exclude _), Upper (.Include _) => some none
  | Lower (.Exclude l), Upper (.Exclude _) => some (some (Point (.Exclude l)))

  | Point (.Include l), Lower _ => some (some (Lower (.Include l)))
  | Point (.Include l), Point (.Include _) => some (some (Point (.Include l)))
  | Point (.Include l), Upper _ => some (some (Upper (.Include l)))
  | Point (.Include _), _ => some none

  | Point (.Exclude l), Lower (.Exclude _) => some (some (Point (.Exclude l)))
  | Point (.Exclude l), Point (.Exclude _) => some (some (Point (.Exclude l)))
  | Point (.Exclude l), Upper (.Exclude _) => some (some (Point (.Exclude l)))
  | Point (.Exclude _), _ => some none

  | Upper (.Include _), Lower (.Include _) => some none
  | Upper (.Include _), Lower (.Exclude _) => some none
  | Upper (.Exclude _), Lower (.Include _) => some none
  | Upper (.Exclude l), Lower (.Exclude _) => some (some (Point (.Exclude l)))

  | Upper (.Include l), Point (.Include _) => some (some (Upper (.Include l)))
  | Upper (.Include _), Point (.Exclude _) => some none
  | Upper (.Exclude l), Point (.Include _) => some (some (Upper (.Include l)))
  | Upper (.Exclude l), Point (.Exclude _) => some (some (Point (.Exclude l)))

  | Upper (.Include l), Upper (.Exclude _) => some (some (Upper (.Include l)))
  | Upper (.Exclude l), Upper (.Include _) => some (some (Upper (.Include l)))
  | Upper lb, Upper _ => some (some (Upper lb))

  | _, _ => none

/-- `Tine::intersect` (`tine.rs` lines 171-210), release semantics as in
`Tine.union`. -/
def intersect : Tine T → Tine T → Option (Option (Tine T))
  | Lower (.Include l), Lower (.Exclude _) => some (some (Lower (.Exclude l)))
  | Lower (.Exclude l), Lower (.Include _) => some (some (Lower (.Exclude l)))
  | Lower lb, Lower _ => some (some (Lower lb))

  | Lower (.Include l), Point (.Include _) => some (some (Point (.Include l)))
  | Lower (.Exclude l), Point (.Exclude _) => some (some (Lower (.Exclude l)))
  | Lower _, Point _ => some none

  | Lower (.Include l), Upper (.Include _) => some (some (Point (.Include l)))
  | Lower _, Upper _ => some none

  | Point (.Include l), Lower (.Include _) => some (some (Point (.Include l)))
  | Point (.Include l), Point (.Include _) => some (some (Point (.Include l)))
  | Point (.Include l), Upper (.Include _) => some (some (Point (.Include l)))
  | Point (.Include _), _ => some none

  | Point (.Exclude l), Lower _ => some (some (Lower (.Exclude l)))
  | Point (.Exclude _), Point (.Include _) => some none
  | Point (.Exclude l), Point (.Exclude _) => some (some (Point (.Exclude l)))
  | Point (.Exclude l), Upper _ => some (some (Upper (.Exclude l)))

  | Upper (.Include l), Lower (.Include _) => some (some (Point (.Include l)))
  | Upper _, Lower _ => some none

  | Upper (.Include l), Point (.Include _) => some (some (Point (.Include l)))
  | Upper (.Exclude l), Point (.Exclude _) => some (some (Upper (.Exclude l)))
  | Upper _, Point _ => some none

  | Upper (.Include l), Upper (.Exclude _) => some (some (Upper (.Exclude l)))
  | Upper (.Exclude l), Upper (.Include _) => some (some (Upper (.Exclude l)))
  | Upper lb, Upper _ => some (some (Upper lb))

  | _, _ => none

/-- `Tine::minus` (`tine.rs` lines 214-253), release semantics as in
`Tine.union`. -/
def minus : Tine T → Tine T → Option (Option (Tine T))
  | Lower (.Include l), Lower (.Exclude _) => some (some (Point (.Include l)))
  | Lower _, Lower _ => some none

  | Lower (.Include l), Point (.Include _) => some (some (Lower (.Exclude l)))
  | Lower _, Point _ => some none

  | Lower (.Include l), Upper (.Include _) => some (some (Lower (.Exclude l)))
  | Lower (.Include l), Upper (.Exclude _) => some (some (Lower (.Include l)))
  | Lower (.Exclude l), Upper (.Include _) => some (some (Lower (.Exclude l)))
  | Lower (.Exclude l), Upper (.Exclude _) => some (some (Lower (.Exclude l)))

  | Point (.Include _), Lower (.Include _) => some none
  | Point (.Include _), Point (.Include _) => some none
  | Point (.Include _), Upper (.Include _) => some none
  | Point (.Include l), _ => some (some (Point (.Include l)))

  | Point (.Exclude l), Lower _ => some (some (Lower (.Exclude l)))
  | Point (.Exclude l), Point (.Include _) => some (some (Point (.Exclude l)))
  | Point (.Exclude _), Point (.Exclude _) => some none
  | Point (.Exclude l), Upper _ => some (some (Upper (.Exclude l)))

  | Upper (.Include l), Lower (.Include _) => some (some (Upper (.Exclude l)))
  | Upper (.Include l), Lower (.Exclude _) => some (some (Upper (.Include l)))
  | Upper (.Exclude l), Lower (.Include _) => some (some (Upper (.Exclude l)))
  | Upper (.Exclude l), Lower (.Exclude _) => some (some (Upper (.Exclude l)))

  | Upper (.Include l), Point (.Include _) => some (some (Upper (.Exclude l)))
  | Upper _, Point _ => some none

  | Upper (.Include l), Upper (.Exclude _) => some (some (Point (.Include l)))
  | Upper _, Upper _ => some none

  | _, _ => none

/-- `Tine::invert` (`tine.rs` lines 256-266); `none` models the
`panic!("cannot invert infinite Tine")` branch. -/
def invert : Tine T → Option (Tine T)
  | Lower (.Include p) => some (Upper (.Exclude p))
  | Lower (.Exclude p) => some (Upper (.Include p))
  | Point (.Include p) => some (Point (.Exclude p))
  | Point (.Exclude p) => some (Point (.Include p))
  | Upper (.Include p) => some (Lower (.Exclude p))
  | Upper (.Exclude p) => some (Lower (.Include p))
  | _ => none

/-- Total comparison of two values in a linear order, as Rust's
`Ord::cmp` on the domain type. -/
def cmpv [LinearOrder T] (a b : T) : Ordering :=
  if a < b then .lt else if a = b then .eq else .gt

/-- `PartialOrd::partial_cmp` for `Tine` (`tine.rs` lines 270-291);
`none` models the `unreachable!("invalid Tine value")` branch (which is
only reachable when both sides are the illegal `Point(Infinite)`). -/
def pcmp [LinearOrder T] (a b : Tine T) : Option Ordering :=
  match a.as_ref, b.as_ref with
  | some l, some r => some (cmpv l r)
  | _, _ =>
    match a, b with
    | Lower .Infinite, Lower .Infinite => some .eq
    | Upper .Infinite, Upper .Infinite => some .eq
    | Lower .Infinite, _ => some .lt
    | Upper .Infinite, _ => some .gt
    | _, Upper .Infinite => some .lt
    | _, Lower .Infinite => some .gt
    | _, _ => none

/-- `Ord::cmp` for `Tine` (`tine.rs` lines 294-298): the `unwrap` of
`pcmp`.  The defaulted branch corresponds to the panic of `unwrap`,
which can only fire on the illegal `Point(Infinite)` value and is never
exercised by the container operations on legal tines. -/
def cmp [LinearOrder T] (a b : Tine T) : Ordering :=
  (pcmp a b).getD .eq

/-- A legal tine: `Point(Infinite)` is illegal (spec section 3). -/
def legal : Tine T → Bool
  | Point .Infinite => false
  | _ => true

end Tine

/-! ### The ordered-set model of `BTreeSet<Tine<T>>`

A `BTreeSet<Tine<T>>` is modelled as a list sorted strictly by
`Tine.cmp` (tines with equal underlying values compare equal, so at most
one tine is stored per coordinate). -/

variable {T : Type}

/-- `BTreeSet::insert` on the sorted-list model: inserts at the ordered
position; if an element comparing equal is present the existing element
is kept (Rust `insert` does not replace). -/
def sInsert [LinearOrder T] (x : Tine T) : List (Tine T) → List (Tine T)
  | [] => [x]
  | a :: l =>
    match Tine.cmp x a with
    | .lt => x :: a :: l
    | .eq => a :: l
    | .gt => a :: sInsert x l

/-- `BTreeSet::take` on the sorted-list model: removes and returns the
element comparing equal to `x`, if any. -/
def sTake [LinearOrder T] (x : Tine T) : List (Tine T) → Option (Tine T) × List (Tine T)
  | [] => (none, [])
  | a :: l =>
    match Tine.cmp x a with
    | .lt => (none, a :: l)
    | .eq => (some a, l)
    | .gt =>
      let r := sTake x l
      (r.1, a :: r.2)

/-- `BTreeSet::split_off` on the sorted-list model: the first component
keeps everything strictly below `x`, the second everything at or above. -/
def sSplitOff [LinearOrder T] (x : Tine T) : List (Tine T) → List (Tine T) × List (Tine T)
  | [] => ([], [])
  | a :: l =>
    match Tine.cmp a x with
    | .lt =>
      let r := sSplitOff x l
      (a :: r.1, r.2)
    | _ => ([], a :: l)

namespace TineTree

/-- `TineTree::new` (`tine_tree.rs` lines 56-58). -/
def new : List (Tine T) := []

/-- `TineTree::from_raw_interval` (`tine_tree.rs` lines 61-63):
`BTreeSet::from_iter` over the `Split` of the interval. -/
def from_raw_interval [LinearOrder T] (interval : RawInterval T) : List (Tine T) :=
  match Tine.from_raw_interval interval with
  | .Zero => []
  | .One p => sInsert p []
  | .Two l u => sInsert u (sInsert l [])

/-- `TineTree::lower_bound` (`tine_tree.rs` lines 72-74). -/
def lower_bound (s : List (Tine T)) : Option (Bound T) :=
  s.head?.map Tine.into_inner

/-- `TineTree::upper_bound` (`tine_tree.rs` lines 79-81). -/
def upper_bound (s : List (Tine T)) : Option (Bound T) :=
  s.getLast?.map Tine.into_inner

/-- `TineTree::is_empty` (`tine_tree.rs` lines 89-91). -/
def is_empty (s : List (Tine T)) : Bool := s.isEmpty

/-! ### Interval iterators (`tine_tree.rs` lines 980-1133)

`RawIntervalIter::next` / `next_back` and `IntoIter::next` / `next_back`
are textually identical algorithms; one state type models both. -/

/-- The state of a `RawIntervalIter` (and of the owning `IntoIter`):
the remaining tines in order, plus the saved tines. -/
structure RawIntervalIter (T : Type) where
  tine_iter : List (Tine T)
  saved_lower : Option (Tine T)
  saved_upper : Option (Tine T)
deriving DecidableEq, Repr

/-- `RawIntervalIter::next` (`tine_tree.rs` lines 1069-1098) and the
identical `IntoIter::next` (lines 989-1017).  The result is `none` when
the `expect("interval is not partial")` branch panics; otherwise
`some (none, _)` signals an exhausted iterator and `some (some iv, st)`
yields the next interval together with the successor state. -/
def nextF [LinearOrder T] (it : RawIntervalIter T) :
    Option (Option (RawInterval T) × RawIntervalIter T) :=
  let pull : Option (Tine T) × RawIntervalIter T :=
    match it.saved_lower with
    | some t => (some t, { it with saved_lower := none })
    | none =>
      match it.tine_iter with
      | [] => (none, it)
      | t :: r => (some t, { it with tine_iter := r })
  match pull with
  | (none, it2) => some (none, it2)
  | (some lower, it2) =>
    match lower with
    | .Point (.Include p) => some (some (.Point p), it2)
    | _ =>
      let pull2 : Option (Tine T) × RawIntervalIter T :=
        match it2.tine_iter with
        | u :: r => (some u, { it2 with tine_iter := r })
        | [] =>
          match it2.saved_upper with
          | some u => (some u, { it2 with saved_upper := none })
          | none => (none, it2)
      match pull2 with
      | (none, _) => none
      | (some upper, it3) =>
        let it4 :=
          if upper.is_point_exclude then { it3 with saved_lower := some upper } else it3
        some (some (RawInterval.new lower.into_inner upper.into_inner), it4)

/-- `RawIntervalIter::next_back` (`tine_tree.rs` lines 1104-1132) and
the identical `IntoIter::next_back` (lines 1023-1051).  Note that the
source stores the rescued inner tine in `saved_lower` (lines 1120-1122),
exactly as modelled here. -/
def nextB [LinearOrder T] (it : RawIntervalIter T) :
    Option (Option (RawInterval T) × RawIntervalIter T) :=
  let pull : Option (Tine T) × RawIntervalIter T :=
    match it.saved_upper with
    | some t => (some t, { it with saved_upper := none })
    | none =>
      match it.tine_iter.getLast? with
      | none => (none, it)
      | some t => (some t, { it with tine_iter := it.tine_iter.dropLast })
  match pull with
  | (none, it2) => some (none, it2)
  | (some upper, it2) =>
    match upper with
    | .Point (.Include p) => some (some (.Point p), it2)
    | _ =>
      let pull2 : Option (Tine T) × RawIntervalIter T :=
        match it2.tine_iter.getLast? with
        | some u => (some u, { it2 with tine_iter := it2.tine_iter.dropLast })
        | none =>
          match it2.saved_lower with
          | some u => (some u, { it2 with saved_lower := none })
          | none => (none, it2)
      match pull2 with
      | (none, _) => none
      | (some lower, it3) =>
        let it4 :=
          if lower.is_point_exclude then { it3 with saved_lower := some lower } else it3
        some (some (RawInterval.new lower.into_inner upper.into_inner), it4)

/-- Collect the forward iterator with fuel; `none` is a panic (or
exhausted fuel, which never happens with fuel `length + 2`). -/
def collectF [LinearOrder T] : Nat → RawIntervalIter T → Option (List (RawInterval T))
  | 0, _ => none
  | n + 1, it =>
    match nextF it with
    | none => none
    | some (none, _) => some []
    | some (some iv, it2) => (collectF n it2).map (iv :: ·)

/-- Collect the backward iterator with fuel. -/
def collectB [LinearOrder T] : Nat → RawIntervalIter T → Option (List (RawInterval T))
  | 0, _ => none
  | n + 1, it =>
    match nextB it with
    | none => none
    | some (none, _) => some []
    | some (some iv, it2) => (collectB n it2).map (iv :: ·)

/-- `TineTree::iter_intervals` (`tine_tree.rs` lines 910-916). -/
def iter_intervals (s : List (Tine T)) : RawIntervalIter T :=
  ⟨s, none, none⟩

/-- The full forward interval sequence of a tree (`none` = a panic
during iteration). -/
def intervalsF [LinearOrder T] (s : List (Tine T)) : Option (List (RawInterval T)) :=
  collectF (s.length + 2) (iter_intervals s)

/-- The full backward interval sequence of a tree (`none` = a panic
during iteration). -/
def intervalsB [LinearOrder T] (s : List (Tine T)) : Option (List (RawInterval T)) :=
  collectB (s.length + 2) (iter_intervals s)

/-- `TineTree::contains` (`tine_tree.rs` lines 94-99): scans
`iter_intervals`.  The lazy early-exit scan is modelled by a full
collection followed by `any`; the two differ only when iteration
panics, in which case both are `none`-like failures. -/
def contains [LinearOrder T] (s : List (Tine T)) (point : T) : Option Bool :=
  (intervalsF s).map (fun ivs => ivs.any (fun iv => iv.contains point))

/-! ### Tree splitting (`tine_tree.rs` lines 795-903) -/

/-- `TineTree::exterior_split_for_proper_interval` (`tine_tree.rs`
lines 876-903).  Returns the updated tree (everything strictly between
`lower` and `upper` is dropped) together with the four slots
`(res0, res1, res2, res3)`: predecessor copy, tine equal to `lower`,
tine equal to `upper`, successor copy. -/
def exterior_split_for_proper_interval [LinearOrder T]
    (s : List (Tine T)) (lower upper : Tine T) :
    List (Tine T) × Option (Tine T) × Option (Tine T) × Option (Tine T) × Option (Tine T) :=
  let t1 := sTake lower s
  let t2 := sTake upper t1.2
  let sp1 := sSplitOff lower t2.2
  let res0 := sp1.1.getLast?
  let sp2 := sSplitOff upper sp1.2
  let res3 := sp2.2.head?
  (sp1.1 ++ sp2.2, res0, t1.1, t2.1, res3)

/-- `TineTree::exterior_split_for_point_interval` (`tine_tree.rs`
lines 845-860).  Returns the unchanged-but-for-`take` tree together
with `(res0, res1, res2)`: predecessor copy, tine equal to the point,
successor copy. -/
def exterior_split_for_point_interval [LinearOrder T]
    (s : List (Tine T)) (tine : Tine T) :
    List (Tine T) × Option (Tine T) × Option (Tine T) × Option (Tine T) :=
  let t1 := sTake tine s
  let sp := sSplitOff tine t1.2
  (sp.1 ++ sp.2, sp.1.getLast?, t1.1, sp.2.head?)

/-- `TineTree::interior_split_for_proper_interval` (`tine_tree.rs`
lines 795-832).  Returns the updated tree (only tines strictly between
`lower` and `upper` are kept) together with the six slots. -/
def interior_split_for_proper_interval [LinearOrder T]
    (s : List (Tine T)) (lower upper : Tine T) :
    List (Tine T) × Option (Tine T) × Option (Tine T) × Option (Tine T) ×
      Option (Tine T) × Option (Tine T) × Option (Tine T) :=
  let t1 := sTake lower s
  let t2 := sTake upper t1.2
  let sp1 := sSplitOff lower t2.2
  let sp2 := sSplitOff upper sp1.2
  let res0 := sp1.1.getLast?
  let res1 := sp2.1.head?
  let res4 := sp2.1.getLast?
  let res5 := sp2.2.head?
  (sp2.1, res0, res1, t1.1, t2.1, res4, res5)

/-! ### In-place operations (`tine_tree.rs` lines 253-777) -/

/-- `TineTree::union_point_interval` (`tine_tree.rs` lines 404-460). -/
def union_point_interval [LinearOrder T] (s : List (Tine T)) (p : Tine T) :
    Option (List (Tine T)) :=
  let sp := exterior_split_for_point_interval s p
  let s1 := sp.1
  let ts0 := sp.2.1
  let ts1 := sp.2.2.1
  let ts2 := sp.2.2.2
  let merged : Option (Option (Tine T)) :=
    match ts1 with
    | some pt => pt.union p
    | none => some (some p)
  match merged with
  | none => none
  | some none => some s1
  | some (some p2) =>
    let open_before := (ts0.map Tine.is_lower_bound).getD false
    let closed_after := (ts2.map Tine.is_upper_bound).getD false
    match open_before, closed_after with
    | true, true => some s1
    | true, false => some (sInsert p2 s1)
    | false, true => some (sInsert p2 s1)
    | false, false => some (sInsert p2 s1)

/-- `TineTree::union_proper_interval` (`tine_tree.rs` lines 462-586);
the final `unreachable!` arm is `none`. -/
def union_proper_interval [LinearOrder T] (s : List (Tine T)) (l u : Tine T) :
    Option (List (Tine T)) :=
  let sp := exterior_split_for_proper_interval s l u
  let s1 := sp.1
  let ts0 := sp.2.1
  let ts1 := sp.2.2.1
  let ts2 := sp.2.2.2.1
  let ts3 := sp.2.2.2.2
  let merged_l : Option (Option (Tine T)) :=
    match ts1 with
    | some lower => lower.union l
    | none => some (some l)
  let merged_u : Option (Option (Tine T)) :=
    match ts2 with
    | some upper => upper.union u
    | none => some (some u)
  match merged_l, merged_u with
  | none, _ => none
  | _, none => none
  | some ml, some mu =>
    let open_before := (ts0.map Tine.is_lower_bound).getD false
    let closed_after := (ts3.map Tine.is_upper_bound).getD false
    match open_before, ml, mu, closed_after with
    | true, some l2, some u2, true =>
      let s2 := if l2.is_upper_bound then sInsert l2 s1 else s1
      some (if u2.is_lower_bound then sInsert u2 s2 else s2)
    | true, some l2, some u2, false =>
      let s2 := if l2.is_upper_bound then sInsert l2 s1 else s1
      some (sInsert u2 s2)
    | false, some l2, some u2, true =>
      let s2 := sInsert l2 s1
      some (if u2.is_lower_bound then sInsert u2 s2 else s2)
    | false, some l2, some u2, false =>
      some (sInsert u2 (sInsert l2 s1))
    | true, some l2, none, true =>
      some (if l2.is_point_exclude then sInsert l2 s1 else s1)
    | false, some l2, none, true =>
      some (sInsert l2 s1)
    | true, none, some u2, true =>
      some (if u2.is_point_exclude then sInsert u2 s1 else s1)
    | true, none, some u2, false =>
      some (sInsert u2 s1)
    | true, none, none, true => some s1
    | _, _, _, _ => none

/-- `TineTree::union_in_place` (`tine_tree.rs` lines 390-402). -/
def union_in_place [LinearOrder T] (s : List (Tine T)) (interval : RawInterval T) :
    Option (List (Tine T)) :=
  if interval.is_full then some (from_raw_interval .Full)
  else
    match Tine.from_raw_interval interval with
    | .Zero => some s
    | .One p => union_point_interval s p
    | .Two l u => union_proper_interval s l u

/-- `TineTree::intersect_proper_interval` (`tine_tree.rs`
lines 293-387); the final `unreachable!` arm is `none`. -/
def intersect_proper_interval [LinearOrder T] (s : List (Tine T)) (l u : Tine T) :
    Option (List (Tine T)) :=
  let sp := interior_split_for_proper_interval s l u
  let s1 := sp.1
  let ts0 := sp.2.1
  let ts1 := sp.2.2.1
  let ts2 := sp.2.2.2.1
  let ts3 := sp.2.2.2.2.1
  let ts4 := sp.2.2.2.2.2.1
  let ts5 := sp.2.2.2.2.2.2
  let merged_l : Option (Option (Tine T)) :=
    match ts2 with
    | some lower => lower.intersect l
    | none => some (some l)
  let merged_u : Option (Option (Tine T)) :=
    match ts3 with
    | some upper => upper.intersect u
    | none => some (some u)
  match merged_l, merged_u with
  | none, _ => none
  | _, none => none
  | some ml, some mu =>
    let open_before := (ts0.map Tine.is_lower_bound).getD false
    let closed_after := (ts5.map Tine.is_upper_bound).getD false
    let in_l := (ts1.map Tine.is_upper_bound).getD false
    let in_r := (ts4.map Tine.is_lower_bound).getD false
    match open_before, ml, in_l, in_r, mu, closed_after with
    | _, some l2, true, true, some u2, _ =>
      some (sInsert u2 (sInsert l2 s1))
    | _, some l2, false, false, some u2, _ =>
      some (sInsert u2 (sInsert l2 s1))
    | true, some l2, true, false, _, false =>
      some (sInsert l2 s1)
    | false, _, false, true, some u2, true =>
      some (sInsert u2 s1)
    | false, _, false, false, _, false =>
      some s1
    | _, _, _, _, _, _ => none

/-- `TineTree::intersect_in_place` (`tine_tree.rs` lines 253-291). -/
def intersect_in_place [LinearOrder T] (s : List (Tine T)) (interval : RawInterval T) :
    Option (List (Tine T)) :=
  if s.isEmpty || interval.is_full then some s
  else if interval.is_empty then some []
  else
    match interval with
    | .Point pt =>
      match contains s pt with
      | none => none
      | some b => some (if b then from_raw_interval interval else [])
    | _ =>
      match Tine.from_raw_interval interval with
      | .Zero => some []
      | .One (.Point (.Include p)) =>
        match contains s p with
        | none => none
        | some b => some (if b then from_raw_interval (.Point p) else [])
      | .Two l u => intersect_proper_interval s l u
      | _ => none

/-- `TineTree::minus_point_interval` (`tine_tree.rs` lines 606-664). -/
def minus_point_interval [LinearOrder T] (s : List (Tine T)) (p : Tine T) :
    Option (List (Tine T)) :=
  let sp := exterior_split_for_point_interval s p
  let s1 := sp.1
  let ts0 := sp.2.1
  let ts1 := sp.2.2.1
  let ts2 := sp.2.2.2
  let merged : Option (Option (Tine T)) :=
    match ts1 with
    | some pt => pt.minus p
    | none => some (some p)
  match merged with
  | none => none
  | some none => some s1
  | some (some p2) =>
    let open_before := (ts0.map Tine.is_lower_bound).getD false
    let closed_after := (ts2.map Tine.is_upper_bound).getD false
    match open_before, closed_after with
    | true, true =>
      match p2.invert with
      | none => none
      | some pi => some (sInsert pi s1)
    | true, false => some (sInsert p2 s1)
    | false, true => some (sInsert p2 s1)
    | false, false => some s1

/-- `TineTree::minus_proper_interval` (`tine_tree.rs` lines 666-777);
the final `unreachable!` arm is `none`.  The `println!` on line 694 is
modelled separately by `minus_diag_lines`. -/
def minus_proper_interval [LinearOrder T] (s : List (Tine T)) (l u : Tine T) :
    Option (List (Tine T)) :=
  let sp := exterior_split_for_proper_interval s l u
  let s1 := sp.1
  let ts0 := sp.2.1
  let ts1 := sp.2.2.1
  let ts2 := sp.2.2.2.1
  let ts3 := sp.2.2.2.2
  let merged_l : Option (Option (Tine T)) :=
    match ts1 with
    | some lower => lower.minus l
    | none => some (some l)
  let merged_u : Option (Option (Tine T)) :=
    match ts2 with
    | some upper => upper.minus u
    | none => some (some u)
  match merged_l, merged_u with
  | none, _ => none
  | _, none => none
  | some ml, some mu =>
    let open_before := (ts0.map Tine.is_lower_bound).getD false
    let closed_after := (ts3.map Tine.is_upper_bound).getD false
    match open_before, ml, mu, closed_after with
    | true, some l2, some u2, true =>
      let il : Option (Tine T) := if l2.is_upper_bound then some l2 else l2.invert
      let iu : Option (Tine T) := if u2.is_lower_bound then some u2 else u2.invert
      match il, iu with
      | some a, some b => some (sInsert b (sInsert a s1))
      | _, _ => none
    | true, some l2, mu2, false =>
      let il : Option (Tine T) := if l2.is_upper_bound then some l2 else l2.invert
      match il with
      | none => none
      | some a =>
        let s2 := sInsert a s1
        match mu2 with
        | some (.Point (.Include p)) => some (sInsert (.Point (.Include p)) s2)
        | _ => some s2
    | false, ml2, some u2, true =>
      let iu : Option (Tine T) := if u2.is_lower_bound then some u2 else u2.invert
      match iu with
      | none => none
      | some b =>
        let s2 := sInsert b s1
        match ml2 with
        | some (.Point (.Include p)) => some (sInsert (.Point (.Include p)) s2)
        | _ => some s2
    | false, some l2, some u2, false =>
      let s2 := if l2.is_point_include then sInsert l2 s1 else s1
      some (if u2.is_point_include then sInsert u2 s2 else s2)
    | false, some l2, none, false =>
      some (if l2.is_point_include then sInsert l2 s1 else s1)
    | false, none, some u2, false =>
      some (if u2.is_point_include then sInsert u2 s1 else s1)
    | false, none, none, false => some s1
    | _, _, _, _ => none

/-- `TineTree::minus_in_place` (`tine_tree.rs` lines 589-604). -/
def minus_in_place [LinearOrder T] (s : List (Tine T)) (interval : RawInterval T) :
    Option (List (Tine T)) :=
  if s.isEmpty || interval.is_empty then some s
  else if interval.is_full then some []
  else
    match Tine.from_raw_interval interval with
    | .Zero => some s
    | .One p => minus_point_interval s p
    | .Two l u => minus_proper_interval s l u

/-- The number of diagnostic lines printed by `minus_in_place`: the
unconditional `println!("Minus ...")` on `tine_tree.rs` line 694 runs
exactly when `minus_proper_interval` is entered. -/
def minus_diag_lines [LinearOrder T] (s : List (Tine T)) (interval : RawInterval T) : Nat :=
  if s.isEmpty || interval.is_empty then 0
  else if interval.is_full then 0
  else
    match Tine.from_raw_interval interval with
    | .Two _ _ => 1
    | _ => 0

/-! ### Batch operations (`tine_tree.rs` lines 107-246, 924-958) -/

/-- The first-tine step of `TineTree::complement` (`tine_tree.rs`
lines 132-139): if the first tine is `Lower(Infinite)` do nothing, else
insert `Lower(Infinite)` and the inverted first tine. -/
def complement_first [LinearOrder T] (first : Tine T) : Option (List (Tine T)) :=
  match first with
  | .Lower .Infinite => some []
  | t =>
    match t.invert with
    | none => none
    | some ti => some (sInsert ti (sInsert (.Lower .Infinite) []))

/-- The last-tine step of `TineTree::complement` (`tine_tree.rs`
lines 140-147): if the last tine is `Upper(Infinite)` do nothing, else
insert `Upper(Infinite)` and the inverted last tine; `none` on an empty
remainder models the `unreachable!` arm. -/
def complement_last [LinearOrder T] (c1 : List (Tine T)) :
    Option (Tine T) → Option (List (Tine T))
  | none => none
  | some (.Upper .Infinite) => some c1
  | some t =>
    match t.invert with
    | none => none
    | some ti => some (sInsert ti (sInsert (.Upper .Infinite) c1))

/-- The interior step of `TineTree::complement` (`tine_tree.rs`
lines 149-152): insert the inversion of every remaining tine. -/
def complement_fold [LinearOrder T] (c2 : List (Tine T)) (mid : List (Tine T)) :
    Option (List (Tine T)) :=
  mid.foldlM
    (fun acc t =>
      match Tine.invert t with
      | none => none
      | some ti => some (sInsert ti acc))
    c2

/-- `TineTree::complement` (`tine_tree.rs` lines 107-155). -/
def complement [LinearOrder T] (s : List (Tine T)) : Option (List (Tine T)) :=
  if s.isEmpty then some (from_raw_interval .Full)
  else if s.length = 1 then
    (s.head?).bind (fun t =>
      (t.invert).map (fun t2 =>
        sInsert (.Upper .Infinite) (sInsert t2 (sInsert (.Lower .Infinite) []))))
  else
    match s with
    | [] => none
    | first :: rest =>
      (complement_first first).bind (fun c1 =>
        (complement_last c1 rest.getLast?).bind (fun c2 =>
          complement_fold c2 rest.dropLast))

/-- `TineTree::enclose` (`tine_tree.rs` lines 206-240); `none` models
the `expect("point Tine value")` panic on a single infinite tine. -/
def enclose [LinearOrder T] (s : List (Tine T)) : Option (RawInterval T) :=
  if s.isEmpty then some .Empty
  else if s.length = 1 then
    match s.head? with
    | none => none
    | some t =>
      match t.as_ref with
      | none => none
      | some pt => some (.Point pt)
  else
    match s.head?, s.getLast? with
    | some lo, some hi => some (RawInterval.new lo.into_inner hi.into_inner)
    | _, _ => none

/-- `TineTree::closure` (`tine_tree.rs` lines 244-246). -/
def closure [LinearOrder T] (s : List (Tine T)) : Option (RawInterval T) :=
  (enclose s).map RawInterval.closure

/-- `TineTree::union` (`tine_tree.rs` lines 186-192): clone, then fold
`union_in_place` over the other tree's interval stream. -/
def union [LinearOrder T] (a b : List (Tine T)) : Option (List (Tine T)) :=
  match intervalsF b with
  | none => none
  | some ivs => ivs.foldlM union_in_place a

/-- `TineTree::minus` (`tine_tree.rs` lines 196-202). -/
def minus [LinearOrder T] (a b : List (Tine T)) : Option (List (Tine T)) :=
  match intervalsF b with
  | none => none
  | some ivs => ivs.foldlM minus_in_place a

/-- The two-pointer walk of `TineTree::intersect` (`tine_tree.rs`
lines 164-180), with fuel for structural termination: when the other
stream is exhausted the whole operation returns the accumulator; when a
segment intersection is empty the walk advances to the next self
interval, the other stream already advanced past the consumed
interval. -/
def intersectWalk [LinearOrder T] :
    Nat → List (RawInterval T) → List (RawInterval T) → List (Tine T) →
      Option (List (Tine T))
  | 0, _, _, _ => none
  | _ + 1, [], _, acc => some acc
  | _ + 1, _ :: _, [], acc => some acc
  | n + 1, siv :: ss, oiv :: os, acc =>
    let i := siv.intersect oiv
    if i.is_empty then intersectWalk n ss os acc
    else
      match union_in_place acc i with
      | none => none
      | some acc2 => intersectWalk n (siv :: ss) os acc2

/-- `TineTree::intersect` (`tine_tree.rs` lines 159-182). -/
def intersect [LinearOrder T] (a b : List (Tine T)) : Option (List (Tine T)) :=
  match intervalsF a, intervalsF b with
  | some sa, some sb => intersectWalk (sa.length + sb.length + 1) sa sb []
  | _, _ => none

/-- `FromIterator<RawInterval<T>> for TineTree` (`tine_tree.rs`
lines 946-958): fold `union_in_place` over the intervals, starting from
the empty tree. -/
def from_intervals [LinearOrder T] (ivs : List (RawInterval T)) : Option (List (Tine T)) :=
  ivs.foldlM union_in_place []

end TineTree

/-! ### Canonical-form invariants (spec section 3, `TineTree` entry) -/

/-- One step of the interval-tape reading: `false` is the outside
state, `true` the inside state.  `Lower` opens, `Upper` closes,
`Point(Include)` opens-and-closes, `Point(Exclude)` closes-and-reopens;
every other combination is an invalid tape. -/
def tstep : Bool → Tine T → Option Bool
  | false, .Lower _ => some true
  | false, .Point (.Include _) => some false
  | true, .Upper _ => some false
  | true, .Point (.Exclude _) => some true
  | _, _ => none

/-- Scan a tine sequence with `tstep`. -/
def tscan : Bool → List (Tine T) → Option Bool
  | st, [] => some st
  | st, t :: l => (tstep st t).bind (fun st2 => tscan st2 l)

/-- The parity invariant: read in order, the tines form a valid
interval tape that starts and ends outside. -/
def tapeOk (s : List (Tine T)) : Prop := tscan false s = some false

instance : DecidablePred (tapeOk (T := T)) := fun s =>
  inferInstanceAs (Decidable (tscan false s = some false))

/-- Strict sortedness by the `Tine` ordering: in particular no two
stored tines share an underlying value. -/
def SortedT [LinearOrder T] (s : List (Tine T)) : Prop :=
  List.Pairwise (fun a b => Tine.cmp a b = .lt) s

instance [LinearOrder T] : DecidablePred (SortedT (T := T)) := fun s =>
  inferInstanceAs (Decidable (List.Pairwise _ s))

/-- The canonical invariant of a `TineTree` (spec section 3): strict
sortedness plus the parity tape.  Sortedness forces distinct underlying
values and puts `Lower(Infinite)` first and `Upper(Infinite)` last when
present; the tape forces a one-element tree to hold a `Point(Include)`
and excludes the illegal `Point(Infinite)`. -/
def Canonical [LinearOrder T] (s : List (Tine T)) : Prop :=
  SortedT s ∧ tapeOk s

instance [LinearOrder T] : DecidablePred (Canonical (T := T)) := fun s =>
  inferInstanceAs (Decidable (SortedT s ∧ tapeOk s))

/-! ### The key of a tine

Legal tines are ordered exactly by their key: `Lower(Infinite)` sits at
the bottom, `Upper(Infinite)` at the top, and every value-carrying tine
at its underlying value. -/

/-- The coordinate of a tine on the extended number line. -/
inductive TKey (T : Type) where
  | bot
  | val (v : T)
  | top
deriving DecidableEq, Repr

/-- The comparison of two keys. -/
def TKey.cmpk [LinearOrder T] : TKey T → TKey T → Ordering
  | .bot, .bot => .eq
  | .bot, _ => .lt
  | _, .bot => .gt
  | .top, .top => .eq
  | _, .top => .lt
  | .top, _ => .gt
  | .val a, .val b => Tine.cmpv a b

/-- The key of a tine.  The illegal `Point(Infinite)` is sent to `top`;
that branch is never exercised on legal tines. -/
def Tine.key : Tine T → TKey T
  | .Lower .Infinite => .bot
  | .Upper .Infinite => .top
  | .Point .Infinite => .top
  | .Lower (.Include v) => .val v
  | .Lower (.Exclude v) => .val v
  | .Point (.Include v) => .val v
  | .Point (.Exclude v) => .val v
  | .Upper (.Include v) => .val v
  | .Upper (.Exclude v) => .val v

theorem Tine.cmpv_lt_iff [LinearOrder T] {a b : T} : Tine.cmpv a b = .lt ↔ a < b := by
  unfold Tine.cmpv
  by_cases h1 : a < b
  · simp [h1]
  · by_cases h2 : a = b <;> simp [h1, h2]

theorem Tine.cmpv_eq_iff [LinearOrder T] {a b : T} : Tine.cmpv a b = .eq ↔ a = b := by
  unfold Tine.cmpv
  by_cases h1 : a < b
  · simp [h1, ne_of_lt h1]
  · by_cases h2 : a = b <;> simp [h1, h2]

theorem Tine.cmpv_gt_iff [LinearOrder T] {a b : T} : Tine.cmpv a b = .gt ↔ b < a := by
  unfold Tine.cmpv
  by_cases h1 : a < b
  · simp [h1, lt_asymm h1]
  · by_cases h2 : a = b
    · subst h2; simp
    · simp [h1, h2, lt_of_le_of_ne (not_lt.mp h1) (fun hba => h2 hba.symm)]

theorem Tine.cmpv_swap [LinearOrder T] (a b : T) :
    Tine.cmpv b a = (Tine.cmpv a b).swap := by
  rcases lt_trichotomy a b with h | h | h
  · rw [Tine.cmpv_gt_iff.mpr h, Tine.cmpv_lt_iff.mpr h]; rfl
  · subst h; rw [Tine.cmpv_eq_iff.mpr rfl]; rfl
  · rw [Tine.cmpv_lt_iff.mpr h, Tine.cmpv_gt_iff.mpr h]; rfl

theorem Tine.cmpv_self [LinearOrder T] (a : T) : Tine.cmpv a a = .eq :=
  Tine.cmpv_eq_iff.mpr rfl

/-- On legal tines, `partial_cmp` is total and given by key comparison. -/
theorem Tine.pcmp_eq_key [LinearOrder T] (a b : Tine T)
    (ha : a.legal = true) (hb : b.legal = true) :
    Tine.pcmp a b = some (TKey.cmpk a.key b.key) := by
  cases a <;> rename_i ba <;> cases ba <;> cases b <;> rename_i bb <;> cases bb <;>
    simp_all [Tine.pcmp, Tine.as_ref, Bound.as_ref, Tine.key, TKey.cmpk, Tine.legal]

/-- On legal tines, the container ordering is key comparison. -/
theorem Tine.cmp_eq_key [LinearOrder T] (a b : Tine T)
    (ha : a.legal = true) (hb : b.legal = true) :
    Tine.cmp a b = TKey.cmpk a.key b.key := by
  rw [Tine.cmp, Tine.pcmp_eq_key a b ha hb]
  rfl

theorem TKey.cmpk_self [LinearOrder T] (x : TKey T) : TKey.cmpk x x = .eq := by
  cases x <;> simp [TKey.cmpk, Tine.cmpv_self]

theorem TKey.cmpk_swap [LinearOrder T] (x y : TKey T) :
    TKey.cmpk y x = (TKey.cmpk x y).swap := by
  cases x <;> cases y <;> first | rfl | exact Tine.cmpv_swap _ _

theorem TKey.cmpk_trans [LinearOrder T] {x y z : TKey T}
    (h1 : TKey.cmpk x y = .lt) (h2 : TKey.cmpk y z = .lt) :
    TKey.cmpk x z = .lt := by
  cases x <;> cases y <;> cases z <;>
    simp_all [TKey.cmpk, Tine.cmpv_lt_iff]
  exact lt_trans h1 h2

theorem TKey.cmpk_eq_iff [LinearOrder T] {x y : TKey T} :
    TKey.cmpk x y = .eq ↔ x = y := by
  cases x <;> cases y <;> simp [TKey.cmpk, Tine.cmpv_eq_iff]


/-! ### Claims settled on concrete inputs -/

/-- C1: scenario S2 over the integers, `A = [0, 5] ∪ [10, 15]`,
`B = [5, 10]`.  The union part (`[0, 15]`) and the minus part
(`[0, 5) ∪ (10, 15]`) hold, but `A.intersect(&B)` returns the tree
containing only the point `{5}` instead of `{5} ∪ {10}`: after the
segment `[0, 5] ∩ [5, 10] = {5}` is accumulated, the two-pointer walk
exhausts the other stream and returns, so the segment
`[10, 15] ∩ [5, 10] = {10}` is never computed.  This theorem evaluates
the engine at exactly the claimed inputs. -/
theorem claim_C1_eval :
    TineTree.from_intervals [RawInterval.Closed (0 : ℤ) 5, RawInterval.Closed 10 15] =
      some [Tine.Lower (Bound.Include 0), Tine.Upper (Bound.Include 5),
        Tine.Lower (Bound.Include 10), Tine.Upper (Bound.Include 15)] ∧
    TineTree.from_raw_interval (RawInterval.Closed (5 : ℤ) 10) =
      [Tine.Lower (Bound.Include 5), Tine.Upper (Bound.Include 10)] ∧
    TineTree.union
        [Tine.Lower (Bound.Include (0 : ℤ)), Tine.Upper (Bound.Include 5),
          Tine.Lower (Bound.Include 10), Tine.Upper (Bound.Include 15)]
        [Tine.Lower (Bound.Include 5), Tine.Upper (Bound.Include 10)] =
      some [Tine.Lower (Bound.Include 0), Tine.Upper (Bound.Include 15)] ∧
    TineTree.minus
        [Tine.Lower (Bound.Include (0 : ℤ)), Tine.Upper (Bound.Include 5),
          Tine.Lower (Bound.Include 10), Tine.Upper (Bound.Include 15)]
        [Tine.Lower (Bound.Include 5), Tine.Upper (Bound.Include 10)] =
      some [Tine.Lower (Bound.Include 0), Tine.Upper (Bound.Exclude 5),
        Tine.Lower (Bound.Exclude 10), Tine.Upper (Bound.Include 15)] ∧
    TineTree.intersect
        [Tine.Lower (Bound.Include (0 : ℤ)), Tine.Upper (Bound.Include 5),
          Tine.Lower (Bound.Include 10), Tine.Upper (Bound.Include 15)]
        [Tine.Lower (Bound.Include 5), Tine.Upper (Bound.Include 10)] =
      some [Tine.Point (Bound.Include 5)] ∧
    ([Tine.Point (Bound.Include (5 : ℤ))] ≠
      [Tine.Point (Bound.Include 5), Tine.Point (Bound.Include 10)]) := by
  refine ⟨?_, ?_, ?_, ?_, ?_, ?_⟩ <;> decide

/-- C2: on the canonical tree for `(0, 5) ∪ (5, 10)` (which stores the
puncture `Point(Exclude 5)`), forward iteration correctly yields
`Open(0, 5), Open(5, 10)`, but reverse iteration yields
`Open(5, 10), Empty`: `next_back` stores the rescued puncture in
`saved_lower` instead of `saved_upper`, so the saved tine is never
re-read as an upper bound, the tine `Lower(Exclude 0)` is consumed as
an "upper" bound, and the empty interval `new(Exclude 5, Exclude 0)` is
emitted.  The claimed descending sequence `Open(5, 10), Open(0, 5)` is
not produced and an empty `RawInterval` is emitted. -/
theorem claim_C2_eval :
    Canonical [Tine.Lower (Bound.Exclude (0 : ℤ)), Tine.Point (Bound.Exclude 5),
      Tine.Upper (Bound.Exclude 10)] ∧
    TineTree.intervalsF [Tine.Lower (Bound.Exclude (0 : ℤ)), Tine.Point (Bound.Exclude 5),
        Tine.Upper (Bound.Exclude 10)] =
      some [RawInterval.Open 0 5, RawInterval.Open 5 10] ∧
    TineTree.intervalsB [Tine.Lower (Bound.Exclude (0 : ℤ)), Tine.Point (Bound.Exclude 5),
        Tine.Upper (Bound.Exclude 10)] =
      some [RawInterval.Open 5 10, RawInterval.Empty] ∧
    some [RawInterval.Open (5 : ℤ) 10, RawInterval.Empty] ≠
      some [RawInterval.Open (5 : ℤ) 10, RawInterval.Open 0 5] := by
  refine ⟨?_, ?_, ?_, ?_⟩ <;> decide

/-- C3: `minus_in_place` does not restore the canonical invariants.
On the canonical tree for `(0, 5) ∪ (5, 10)`, subtracting the valid
point interval `{5}` merges the stored puncture via
`Point(Exclude 5).minus(Point(Include 5)) = Point(Exclude 5)` and then,
because both neighbours look inward, inserts the *inverted* tine
`Point(Include 5)`.  The result fails the parity-tape invariant
(`Point(Include)` occurs in the inside state). -/
theorem claim_C3_eval :
    Canonical [Tine.Lower (Bound.Exclude (0 : ℤ)), Tine.Point (Bound.Exclude 5),
      Tine.Upper (Bound.Exclude 10)] ∧
    RawInterval.validB (RawInterval.Point (5 : ℤ)) = true ∧
    TineTree.minus_in_place
        [Tine.Lower (Bound.Exclude (0 : ℤ)), Tine.Point (Bound.Exclude 5),
          Tine.Upper (Bound.Exclude 10)]
        (RawInterval.Point 5) =
      some [Tine.Lower (Bound.Exclude 0), Tine.Point (Bound.Include 5),
        Tine.Upper (Bound.Exclude 10)] ∧
    ¬ tapeOk [Tine.Lower (Bound.Exclude (0 : ℤ)), Tine.Point (Bound.Include 5),
      Tine.Upper (Bound.Exclude 10)] := by
  refine ⟨?_, ?_, ?_, ?_⟩ <;> decide

/-- C4: the two implementations of intersection disagree.  For the
canonical tree `A = [0, 5] ∪ [10, 15]` and the interval `[5, 10]`,
`A.intersect(&TineTree::from_raw_interval([5, 10]))` returns the tree
`{5}` (the batch walk loses the second overlap), while cloning `A` and
calling `intersect_in_place(&[5, 10])` returns the correct
`{5} ∪ {10}`. -/
theorem claim_C4_eval :
    Canonical [Tine.Lower (Bound.Include (0 : ℤ)), Tine.Upper (Bound.Include 5),
      Tine.Lower (Bound.Include 10), Tine.Upper (Bound.Include 15)] ∧
    TineTree.intersect
        [Tine.Lower (Bound.Include (0 : ℤ)), Tine.Upper (Bound.Include 5),
          Tine.Lower (Bound.Include 10), Tine.Upper (Bound.Include 15)]
        (TineTree.from_raw_interval (RawInterval.Closed 5 10)) =
      some [Tine.Point (Bound.Include 5)] ∧
    TineTree.intersect_in_place
        [Tine.Lower (Bound.Include (0 : ℤ)), Tine.Upper (Bound.Include 5),
          Tine.Lower (Bound.Include 10), Tine.Upper (Bound.Include 15)]
        (RawInterval.Closed 5 10) =
      some [Tine.Point (Bound.Include 5), Tine.Point (Bound.Include 10)] ∧
    ([Tine.Point (Bound.Include (5 : ℤ))] ≠
      [Tine.Point (Bound.Include 5), Tine.Point (Bound.Include 10)]) := by
  refine ⟨?_, ?_, ?_, ?_⟩ <;> decide

/-- C9: a public operation reaches an `unreachable!` branch starting
from a canonical tree.  Intersecting the canonical tree
`A = [0, 2] ∪ [5, 7]` in place with the valid interval `(0, 5)` merges
`Lower(Include 5).intersect(Upper(Exclude 5))`, which annihilates, and
reaches the context combination `(open_before = false, merged_l = Some,
in_l = true, in_r = false, merged_u = None, closed_after = true)`,
which matches no arm of the `match` in `intersect_proper_interval`: the
code panics via `unreachable!("invalid bounds for intersection
interval")` (modelled as `none`) even though the mathematical result
`(0, 2]` exists. -/
theorem claim_C9_eval :
    Canonical [Tine.Lower (Bound.Include (0 : ℤ)), Tine.Upper (Bound.Include 2),
      Tine.Lower (Bound.Include 5), Tine.Upper (Bound.Include 7)] ∧
    RawInterval.validB (RawInterval.Open (0 : ℤ) 5) = true ∧
    TineTree.intersect_in_place
        [Tine.Lower (Bound.Include (0 : ℤ)), Tine.Upper (Bound.Include 2),
          Tine.Lower (Bound.Include 5), Tine.Upper (Bound.Include 7)]
        (RawInterval.Open 0 5) = none := by
  refine ⟨?_, ?_, ?_⟩ <;> decide

/-- C10: `minus_in_place` with a proper interval always runs the
unconditional `println!("Minus ...")` on `tine_tree.rs` line 694:
subtracting the valid interval `[1, 2]` from the canonical tree `[0, 5]`
emits one diagnostic line (and the claim says zero), while the tree
update itself is performed. -/
theorem claim_C10_eval :
    TineTree.minus_diag_lines
        [Tine.Lower (Bound.Include (0 : ℤ)), Tine.Upper (Bound.Include 5)]
        (RawInterval.Closed 1 2) = 1 ∧
    (1 : Nat) ≠ 0 ∧
    TineTree.minus_in_place
        [Tine.Lower (Bound.Include (0 : ℤ)), Tine.Upper (Bound.Include 5)]
        (RawInterval.Closed 1 2) =
      some [Tine.Lower (Bound.Include 0), Tine.Upper (Bound.Exclude 1),
        Tine.Lower (Bound.Exclude 2), Tine.Upper (Bound.Include 5)] := by
  refine ⟨?_, ?_, ?_⟩ <;> decide

/-- C5: `Tine::union` on two co-located tines implements the stated
merge table, in both argument orders: two `Lower`s give the more
inclusive lower; `Lower(Include) ∪ Upper(Include)` annihilates;
`Lower(Exclude) ∪ Upper(Exclude)` gives `Point(Exclude)`; any `Lower`
with `Point(Include)` promotes to `Lower(Include)`;
`Lower(Exclude) ∪ Point(Exclude)` gives `Point(Exclude)`;
`Lower(Include) ∪ Point(Exclude)` annihilates; and the `Upper` and
`Point` cases are the symmetric duals. -/
theorem claim_C5_union_table (T : Type) (v : T) :
    (Tine.union (Tine.Lower (Bound.Include v)) (Tine.Lower (Bound.Exclude v)) =
      some (some (Tine.Lower (Bound.Include v)))) ∧
    (Tine.union (Tine.Lower (Bound.Exclude v)) (Tine.Lower (Bound.Include v)) =
      some (some (Tine.Lower (Bound.Include v)))) ∧
    (Tine.union (Tine.Lower (Bound.Include v)) (Tine.Lower (Bound.Include v)) =
      some (some (Tine.Lower (Bound.Include v)))) ∧
    (Tine.union (Tine.Lower (Bound.Exclude v)) (Tine.Lower (Bound.Exclude v)) =
      some (some (Tine.Lower (Bound.Exclude v)))) ∧
    (Tine.union (Tine.Lower (Bound.Include v)) (Tine.Upper (Bound.Include v)) = some none) ∧
    (Tine.union (Tine.Upper (Bound.Include v)) (Tine.Lower (Bound.Include v)) = some none) ∧
    (Tine.union (Tine.Lower (Bound.Exclude v)) (Tine.Upper (Bound.Exclude v)) =
      some (some (Tine.Point (Bound.Exclude v)))) ∧
    (Tine.union (Tine.Upper (Bound.Exclude v)) (Tine.Lower (Bound.Exclude v)) =
      some (some (Tine.Point (Bound.Exclude v)))) ∧
    (Tine.union (Tine.Lower (Bound.Include v)) (Tine.Point (Bound.Include v)) =
      some (some (Tine.Lower (Bound.Include v)))) ∧
    (Tine.union (Tine.Lower (Bound.Exclude v)) (Tine.Point (Bound.Include v)) =
      some (some (Tine.Lower (Bound.Include v)))) ∧
    (Tine.union (Tine.Point (Bound.Include v)) (Tine.Lower (Bound.Include v)) =
      some (some (Tine.Lower (Bound.Include v)))) ∧
    (Tine.union (Tine.Point (Bound.Include v)) (Tine.Lower (Bound.Exclude v)) =
      some (some (Tine.Lower (Bound.Include v)))) ∧
    (Tine.union (Tine.Lower (Bound.Exclude v)) (Tine.Point (Bound.Exclude v)) =
      some (some (Tine.Point (Bound.Exclude v)))) ∧
    (Tine.union (Tine.Point (Bound.Exclude v)) (Tine.Lower (Bound.Exclude v)) =
      some (some (Tine.Point (Bound.Exclude v)))) ∧
    (Tine.union (Tine.Lower (Bound.Include v)) (Tine.Point (Bound.Exclude v)) = some none) ∧
    (Tine.union (Tine.Point (Bound.Exclude v)) (Tine.Lower (Bound.Include v)) = some none) ∧
    (Tine.union (Tine.Upper (Bound.Include v)) (Tine.Upper (Bound.Exclude v)) =
      some (some (Tine.Upper (Bound.Include v)))) ∧
    (Tine.union (Tine.Upper (Bound.Exclude v)) (Tine.Upper (Bound.Include v)) =
      some (some (Tine.Upper (Bound.Include v)))) ∧
    (Tine.union (Tine.Upper (Bound.Include v)) (Tine.Upper (Bound.Include v)) =
      some (some (Tine.Upper (Bound.Include v)))) ∧
    (Tine.union (Tine.Upper (Bound.Exclude v)) (Tine.Upper (Bound.Exclude v)) =
      some (some (Tine.Upper (Bound.Exclude v)))) ∧
    (Tine.union (Tine.Upper (Bound.Include v)) (Tine.Point (Bound.Include v)) =
      some (some (Tine.Upper (Bound.Include v)))) ∧
    (Tine.union (Tine.Upper (Bound.Exclude v)) (Tine.Point (Bound.Include v)) =
      some (some (Tine.Upper (Bound.Include v)))) ∧
    (Tine.union (Tine.Point (Bound.Include v)) (Tine.Upper (Bound.Include v)) =
      some (some (Tine.Upper (Bound.Include v)))) ∧
    (Tine.union (Tine.Point (Bound.Include v)) (Tine.Upper (Bound.Exclude v)) =
      some (some (Tine.Upper (Bound.Include v)))) ∧
    (Tine.union (Tine.Upper (Bound.Exclude v)) (Tine.Point (Bound.Exclude v)) =
      some (some (Tine.Point (Bound.Exclude v)))) ∧
    (Tine.union (Tine.Point (Bound.Exclude v)) (Tine.Upper (Bound.Exclude v)) =
      some (some (Tine.Point (Bound.Exclude v)))) ∧
    (Tine.union (Tine.Upper (Bound.Include v)) (Tine.Point (Bound.Exclude v)) = some none) ∧
    (Tine.union (Tine.Point (Bound.Exclude v)) (Tine.Upper (Bound.Include v)) = some none) ∧
    (Tine.union (Tine.Point (Bound.Include v)) (Tine.Point (Bound.Include v)) =
      some (some (Tine.Point (Bound.Include v)))) ∧
    (Tine.union (Tine.Point (Bound.Exclude v)) (Tine.Point (Bound.Exclude v)) =
      some (some (Tine.Point (Bound.Exclude v)))) ∧
    (Tine.union (Tine.Point (Bound.Include v)) (Tine.Point (Bound.Exclude v)) = some none) ∧
    (Tine.union (Tine.Point (Bound.Exclude v)) (Tine.Point (Bound.Include v)) = some none) := by
  repeat' apply And.intro
  all_goals rfl

/-- C6: the `Tine` ordering (`partial_cmp` / `cmp`) is a total order on
legal tines: `Lower(Infinite)` is strictly below every other tine and
equal only to itself, `Upper(Infinite)` is strictly above every other
tine and equal only to itself, value-carrying tines compare exactly as
their underlying values (so equal values compare equal regardless of
side or inclusion), and the comparison is total, reflexive, swap-
antisymmetric and transitive. -/
theorem claim_C6_order {T : Type} [LinearOrder T] :
    (∀ a : Tine T, a.legal = true → a ≠ Tine.Lower Bound.Infinite →
      Tine.pcmp (Tine.Lower Bound.Infinite) a = some .lt ∧
      Tine.pcmp a (Tine.Lower Bound.Infinite) = some .gt) ∧
    (Tine.pcmp (Tine.Lower Bound.Infinite) (Tine.Lower (Bound.Infinite : Bound T)) =
      some .eq) ∧
    (∀ a : Tine T, a.legal = true → a ≠ Tine.Upper Bound.Infinite →
      Tine.pcmp (Tine.Upper Bound.Infinite) a = some .gt ∧
      Tine.pcmp a (Tine.Upper Bound.Infinite) = some .lt) ∧
    (Tine.pcmp (Tine.Upper Bound.Infinite) (Tine.Upper (Bound.Infinite : Bound T)) =
      some .eq) ∧
    (∀ (a b : Tine T) (v w : T), a.as_ref = some v → b.as_ref = some w →
      Tine.pcmp a b = some (Tine.cmpv v w)) ∧
    (∀ (a b : Tine T) (v : T), a.as_ref = some v → b.as_ref = some v →
      Tine.pcmp a b = some .eq) ∧
    (∀ a b : Tine T, a.legal = true → b.legal = true → (Tine.pcmp a b).isSome = true) ∧
    (∀ a : Tine T, a.legal = true → Tine.cmp a a = .eq) ∧
    (∀ a b : Tine T, a.legal = true → b.legal = true →
      Tine.cmp b a = (Tine.cmp a b).swap) ∧
    (∀ a b c : Tine T, a.legal = true → b.legal = true → c.legal = true →
      Tine.cmp a b = .lt → Tine.cmp b c = .lt → Tine.cmp a c = .lt) ∧
    (∀ a b c : Tine T, a.legal = true → b.legal = true → c.legal = true →
      Tine.cmp a b = .eq → Tine.cmp b c = .eq → Tine.cmp a c = .eq) := by
  refine ⟨?_, rfl, ?_, rfl, ?_, ?_, ?_, ?_, ?_, ?_, ?_⟩
  · intro a ha hne
    cases a <;> rename_i b <;> cases b <;>
      simp_all [Tine.pcmp, Tine.as_ref, Bound.as_ref, Tine.legal]
  · intro a ha hne
    cases a <;> rename_i b <;> cases b <;>
      simp_all [Tine.pcmp, Tine.as_ref, Bound.as_ref, Tine.legal]
  · intro a b v w hav hbw
    cases a <;> rename_i ba <;> cases ba <;> cases b <;> rename_i bb <;> cases bb <;>
      simp_all [Tine.pcmp, Tine.as_ref, Bound.as_ref]
  · intro a b v hav hbv
    cases a <;> rename_i ba <;> cases ba <;> cases b <;> rename_i bb <;> cases bb <;>
      simp_all [Tine.pcmp, Tine.as_ref, Bound.as_ref, Tine.cmpv_self]
  · intro a b ha hb
    rw [Tine.pcmp_eq_key a b ha hb]
    rfl
  · intro a ha
    rw [Tine.cmp_eq_key a a ha ha, TKey.cmpk_self]
  · intro a b ha hb
    rw [Tine.cmp_eq_key a b ha hb, Tine.cmp_eq_key b a hb ha, TKey.cmpk_swap]
  · intro a b c ha hb hc h1 h2
    rw [Tine.cmp_eq_key a b ha hb] at h1
    rw [Tine.cmp_eq_key b c hb hc] at h2
    rw [Tine.cmp_eq_key a c ha hc]
    exact TKey.cmpk_trans h1 h2
  · intro a b c ha hb hc h1 h2
    rw [Tine.cmp_eq_key a b ha hb, TKey.cmpk_eq_iff] at h1
    rw [Tine.cmp_eq_key b c hb hc, TKey.cmpk_eq_iff] at h2
    rw [Tine.cmp_eq_key a c ha hc, TKey.cmpk_eq_iff, h1, h2]

/-- Witness for C6 at concrete legal tines over the integers. -/
theorem claim_C6_order_witness :
    Tine.pcmp (Tine.Lower Bound.Infinite) (Tine.Upper (Bound.Include (3 : ℤ))) =
      some .lt ∧
    Tine.pcmp (Tine.Lower (Bound.Include (3 : ℤ))) (Tine.Upper (Bound.Exclude 3)) =
      some .eq ∧
    Tine.cmp (Tine.Point (Bound.Exclude (4 : ℤ))) (Tine.Point (Bound.Exclude 4)) = .eq :=
  ⟨(claim_C6_order.1 (Tine.Upper (Bound.Include (3 : ℤ))) (by decide) (by decide)).1,
    claim_C6_order.2.2.2.2.2.1 (Tine.Lower (Bound.Include (3 : ℤ)))
      (Tine.Upper (Bound.Exclude 3)) 3 rfl rfl,
    claim_C6_order.2.2.2.2.2.2.2.1 (Tine.Point (Bound.Exclude (4 : ℤ))) (by decide)⟩

/-! ### Toolkit: tape, key and sorted-insert lemmas -/

theorem tscan_append (st : Bool) (A B : List (Tine T)) :
    tscan st (A ++ B) = (tscan st A).bind (fun st2 => tscan st2 B) := by
  induction A generalizing st with
  | nil => rfl
  | cons t l ih =>
    simp only [List.cons_append, tscan, Option.bind_assoc]
    cases tstep st t with
    | none => rfl
    | some st2 => simpa using ih st2

theorem tstep_legal {st st2 : Bool} {t : Tine T} (h : tstep st t = some st2) :
    t.legal = true := by
  cases st <;> cases t <;> rename_i b <;> cases b <;> simp_all [tstep, Tine.legal]

theorem tscan_legal {st st2 : Bool} {s : List (Tine T)} (h : tscan st s = some st2) :
    ∀ t ∈ s, t.legal = true := by
  induction s generalizing st with
  | nil => simp
  | cons a l ih =>
    intro t ht
    simp only [tscan] at h
    cases hstep : tstep st a with
    | none => rw [hstep] at h; simp at h
    | some st3 =>
      rw [hstep] at h
      simp only [Option.some_bind] at h
      rcases List.mem_cons.mp ht with rfl | hmem
      · exact tstep_legal hstep
      · exact ih h t hmem

/-- A tine that opens a tape from the outside state is `Lower(Infinite)`
or value-carrying. -/
theorem tstep_start_shape {t : Tine T} {st : Bool} (h : tstep false t = some st) :
    t = Tine.Lower Bound.Infinite ∨ ∃ v, t.key = TKey.val v := by
  cases t <;> rename_i b <;> cases b <;> simp_all [tstep, Tine.key] <;> exact ⟨_, rfl⟩

/-- A tine that leaves a tape in the outside state is `Upper(Infinite)`
or value-carrying. -/
theorem tstep_end_shape {t : Tine T} {st : Bool} (h : tstep st t = some false) :
    t = Tine.Upper Bound.Infinite ∨ ∃ v, t.key = TKey.val v := by
  cases st <;> cases t <;> rename_i b <;> cases b <;> simp_all [tstep, Tine.key] <;>
    exact ⟨_, rfl⟩

theorem legal_of_val {t : Tine T} {v : T} (h : t.key = TKey.val v) : t.legal = true := by
  cases t <;> rename_i b <;> cases b <;> simp_all [Tine.key, Tine.legal]

theorem cmpk_x_bot_ne_lt [LinearOrder T] {x : TKey T} : TKey.cmpk x .bot ≠ .lt := by
  cases x <;> simp [TKey.cmpk]

theorem cmpk_top_x_ne_lt [LinearOrder T] {x : TKey T} : TKey.cmpk .top x ≠ .lt := by
  cases x <;> simp [TKey.cmpk]

theorem val_of_between [LinearOrder T] {x k y : TKey T}
    (h1 : TKey.cmpk x k = .lt) (h2 : TKey.cmpk k y = .lt) : ∃ v, k = TKey.val v := by
  cases k
  · exact absurd h1 cmpk_x_bot_ne_lt
  · exact ⟨_, rfl⟩
  · exact absurd h2 cmpk_top_x_ne_lt

/-- Totalized `invert`, for stating results on invertible tines. -/
def invertF (t : Tine T) : Tine T := (t.invert).getD t

theorem invert_of_val {t : Tine T} {v : T} (h : t.key = TKey.val v) :
    t.invert = some (invertF t) ∧ (invertF t).key = TKey.val v ∧
      (invertF t).legal = true := by
  cases t <;> rename_i b <;> cases b <;>
    simp_all [Tine.invert, invertF, Tine.key, Tine.legal]

theorem invert_invertF {t : Tine T} {v : T} (h : t.key = TKey.val v) :
    (invertF t).invert = some t := by
  cases t <;> rename_i b <;> cases b <;> simp_all [Tine.invert, invertF, Tine.key]

theorem sInsert_nil [LinearOrder T] (x : Tine T) : sInsert x [] = [x] := rfl

theorem sInsert_cons_lt [LinearOrder T] {x a : Tine T} {l : List (Tine T)}
    (h : Tine.cmp x a = .lt) : sInsert x (a :: l) = x :: a :: l := by
  simp [sInsert, h]

theorem sInsert_append_gt [LinearOrder T] {x : Tine T} {P Q : List (Tine T)}
    (h : ∀ p ∈ P, Tine.cmp x p = .gt) :
    sInsert x (P ++ Q) = P ++ sInsert x Q := by
  induction P with
  | nil => rfl
  | cons p l ih =>
    have hp := h p (by simp)
    simp only [List.cons_append, sInsert, hp, List.append_eq]
    rw [ih (fun q hq => h q (by simp [hq]))]

theorem sInsert_end [LinearOrder T] {x : Tine T} {P : List (Tine T)}
    (h : ∀ p ∈ P, Tine.cmp x p = .gt) : sInsert x P = P ++ [x] := by
  have h2 := sInsert_append_gt (Q := ([] : List (Tine T))) h
  simpa using h2

theorem sInsert_between [LinearOrder T] {x : Tine T} {P R : List (Tine T)}
    (hP : ∀ p ∈ P, Tine.cmp x p = .gt) (hR : ∀ q ∈ R, Tine.cmp x q = .lt) :
    sInsert x (P ++ R) = P ++ x :: R := by
  cases R with
  | nil => simpa using sInsert_end hP
  | cons q R' =>
    rw [sInsert_append_gt hP, sInsert_cons_lt (hR q (by simp))]

/-! ### Complement characterization -/

theorem cmp_val_gt_bot [LinearOrder T] {t : Tine T} {v : T} (h : t.key = TKey.val v) :
    Tine.cmp t (Tine.Lower Bound.Infinite) = .gt := by
  rw [Tine.cmp_eq_key _ _ (legal_of_val h) (by rfl), h]; rfl

theorem cmp_val_lt_top [LinearOrder T] {t : Tine T} {v : T} (h : t.key = TKey.val v) :
    Tine.cmp t (Tine.Upper Bound.Infinite) = .lt := by
  rw [Tine.cmp_eq_key _ _ (legal_of_val h) (by rfl), h]; rfl

theorem cmp_top_gt_val [LinearOrder T] {t : Tine T} {v : T} (h : t.key = TKey.val v) :
    Tine.cmp (Tine.Upper Bound.Infinite) t = .gt := by
  rw [Tine.cmp_eq_key _ _ (by rfl) (legal_of_val h), h]; rfl

theorem cmp_top_gt_bot [LinearOrder T] :
    Tine.cmp (Tine.Upper Bound.Infinite) (Tine.Lower (Bound.Infinite : Bound T)) = .gt :=
  rfl

theorem cmp_val_val_lt [LinearOrder T] {t u : Tine T} {v w : T}
    (ht : t.key = TKey.val v) (hu : u.key = TKey.val w) :
    Tine.cmp t u = .lt ↔ v < w := by
  rw [Tine.cmp_eq_key _ _ (legal_of_val ht) (legal_of_val hu), ht, hu]
  exact Tine.cmpv_lt_iff

theorem cmp_val_val_gt [LinearOrder T] {t u : Tine T} {v w : T}
    (ht : t.key = TKey.val v) (hu : u.key = TKey.val w) :
    Tine.cmp t u = .gt ↔ w < v := by
  rw [Tine.cmp_eq_key _ _ (legal_of_val ht) (legal_of_val hu), ht, hu]
  exact Tine.cmpv_gt_iff

theorem TineTree.complement_first_inf [LinearOrder T] :
    TineTree.complement_first (Tine.Lower (Bound.Infinite : Bound T)) = some [] := rfl

theorem TineTree.complement_first_val [LinearOrder T] {a : Tine T} {v : T}
    (h : a.key = TKey.val v) :
    TineTree.complement_first a = some [Tine.Lower Bound.Infinite, invertF a] := by
  have hgt : Tine.cmp (invertF a) (Tine.Lower Bound.Infinite) = .gt :=
    cmp_val_gt_bot (invert_of_val h).2.1
  have key : sInsert (invertF a) (sInsert (Tine.Lower Bound.Infinite) []) =
      [Tine.Lower Bound.Infinite, invertF a] := by
    rw [sInsert_nil]
    have h2 := sInsert_end (x := invertF a) (P := [Tine.Lower Bound.Infinite])
      (by intro p hp; simp at hp; subst hp; exact hgt)
    simpa using h2
  cases a <;> rename_i b <;> cases b <;>
    first
      | (exact (congrArg some key))
      | (simp [Tine.key] at h)

theorem TineTree.complement_last_inf [LinearOrder T] (c1 : List (Tine T)) :
    TineTree.complement_last c1 (some (Tine.Upper Bound.Infinite)) = some c1 := rfl

theorem TineTree.complement_last_val [LinearOrder T] {b : Tine T} {v : T} {c1 : List (Tine T)}
    (h : b.key = TKey.val v)
    (hgt : ∀ p ∈ c1, Tine.cmp (Tine.Upper Bound.Infinite) p = .gt)
    (hgt2 : ∀ p ∈ c1, Tine.cmp (invertF b) p = .gt) :
    TineTree.complement_last c1 (some b) =
      some (c1 ++ [invertF b, Tine.Upper Bound.Infinite]) := by
  have hlt : Tine.cmp (invertF b) (Tine.Upper Bound.Infinite) = .lt :=
    cmp_val_lt_top (invert_of_val h).2.1
  have key : sInsert (invertF b) (sInsert (Tine.Upper Bound.Infinite) c1) =
      c1 ++ [invertF b, Tine.Upper Bound.Infinite] := by
    rw [sInsert_end hgt]
    have h2 := sInsert_between (x := invertF b) (P := c1)
      (R := [Tine.Upper Bound.Infinite]) hgt2
      (by intro q hq; simp at hq; subst hq; exact hlt)
    simpa using h2
  cases b <;> rename_i bb <;> cases bb <;>
    first
      | (exact (congrArg some key))
      | (simp [Tine.key] at h)

theorem TineTree.complement_fold_spec [LinearOrder T] (mid : List (Tine T)) :
    ∀ L R : List (Tine T),
      (∀ t ∈ mid, ∃ v, t.key = TKey.val v) →
      List.Pairwise (fun x y => Tine.cmp x y = .lt) mid →
      (∀ t ∈ mid, ∀ p ∈ L, Tine.cmp (invertF t) p = .gt) →
      (∀ t ∈ mid, ∀ q ∈ R, Tine.cmp (invertF t) q = .lt) →
      TineTree.complement_fold (L ++ R) mid = some (L ++ mid.map invertF ++ R) := by
  induction mid with
  | nil =>
    intro L R _ _ _ _
    simp [TineTree.complement_fold]
  | cons t rest ih =>
    intro L R hval hpair hgt hlt
    obtain ⟨v, hv⟩ := hval t (by simp)
    have hinv := invert_of_val hv
    have hpos : sInsert (invertF t) (L ++ R) = L ++ invertF t :: R :=
      sInsert_between (hgt t (by simp)) (hlt t (by simp))
    have step :
        (match Tine.invert t with
          | none => none
          | some ti => some (sInsert ti (L ++ R))) = some (L ++ invertF t :: R) := by
      rw [hinv.1]
      exact congrArg some hpos
    have ihres := ih (L ++ [invertF t]) R
      (fun u hu => hval u (by simp [hu]))
      (List.Pairwise.sublist (List.sublist_cons_self t rest) hpair)
      (by
        intro u hu p hp
        rcases List.mem_append.mp hp with hpL | hpt
        · exact hgt u (by simp [hu]) p hpL
        · simp at hpt
          subst hpt
          obtain ⟨w, hw⟩ := hval u (by simp [hu])
          have htu : Tine.cmp t u = .lt := (List.pairwise_cons.mp hpair).1 u hu
          have hvw : v < w := (cmp_val_val_lt hv hw).mp htu
          exact (cmp_val_val_gt (invert_of_val hw).2.1 hinv.2.1).mpr hvw)
      (fun u hu q hq => hlt u (by simp [hu]) q hq)
    calc
      TineTree.complement_fold (L ++ R) (t :: rest) =
          TineTree.complement_fold (L ++ invertF t :: R) rest := by
        simp only [TineTree.complement_fold, List.foldlM_cons, step]
        rfl
      _ = TineTree.complement_fold ((L ++ [invertF t]) ++ R) rest := by
        simp
      _ = some ((L ++ [invertF t]) ++ rest.map invertF ++ R) := ihres
      _ = some (L ++ (t :: rest).map invertF ++ R) := by
        simp

/-- The explicit value of `complement` on a tree with at least two
tines whose ends are `Lower(Infinite)` / `Upper(Infinite)` or finite. -/
theorem complement_spec [LinearOrder T] (a b : Tine T) (mid : List (Tine T))
    (hsort : SortedT (a :: mid ++ [b]))
    (hA : a = Tine.Lower Bound.Infinite ∨ ∃ v, a.key = TKey.val v)
    (hB : b = Tine.Upper Bound.Infinite ∨ ∃ v, b.key = TKey.val v)
    (hMid : ∀ t ∈ mid, ∃ v, t.key = TKey.val v) :
    TineTree.complement (a :: mid ++ [b]) =
      some ((if a = Tine.Lower Bound.Infinite then []
              else [Tine.Lower Bound.Infinite, invertF a]) ++
        mid.map invertF ++
        (if b = Tine.Upper Bound.Infinite then []
              else [invertF b, Tine.Upper Bound.Infinite])) := by
  have hpair1 := List.pairwise_cons.mp hsort
  have hsplit := List.pairwise_append.mp hpair1.2
  have hpairmid : List.Pairwise (fun x y => Tine.cmp x y = .lt) mid := hsplit.1
  have hmidb : ∀ x ∈ mid, Tine.cmp x b = .lt := fun x hx => hsplit.2.2 x hx b (by simp)
  have hab : Tine.cmp a b = .lt := hpair1.1 b (by simp)
  have hamid : ∀ x ∈ mid, Tine.cmp a x = .lt := fun x hx => hpair1.1 x (by simp [hx])
  have hlast : (mid ++ [b]).getLast? = some b := by simp
  have hdrop : (mid ++ [b]).dropLast = mid := by simp
  have unfold1 : TineTree.complement (a :: mid ++ [b]) =
      (TineTree.complement_first a).bind (fun c1 =>
        (TineTree.complement_last c1 (some b)).bind (fun c2 =>
          TineTree.complement_fold c2 mid)) := by
    rw [TineTree.complement.eq_def, if_neg (by simp), if_neg (by simp)]
    show (TineTree.complement_first a).bind (fun c1 =>
        (TineTree.complement_last c1 (mid ++ [b]).getLast?).bind (fun c2 =>
          TineTree.complement_fold c2 (mid ++ [b]).dropLast)) = _
    rw [hlast, hdrop]
  rw [unfold1]
  rcases hA with rfl | ⟨va, hva⟩
  · rcases hB with rfl | ⟨vb, hvb⟩
    · -- both ends infinite
      rw [TineTree.complement_first_inf, Option.some_bind,
        TineTree.complement_last_inf, Option.some_bind]
      have hfold := TineTree.complement_fold_spec mid [] [] hMid hpairmid
        (by intro t ht p hp; simp at hp) (by intro t ht q hq; simp at hq)
      simpa using hfold
    · -- lower end infinite, upper end finite
      rw [TineTree.complement_first_inf, Option.some_bind,
        TineTree.complement_last_val hvb (by intro p hp; simp at hp)
          (by intro p hp; simp at hp),
        Option.some_bind]
      have hfold := TineTree.complement_fold_spec mid []
        [invertF b, Tine.Upper Bound.Infinite] hMid hpairmid
        (by intro t ht p hp; simp at hp)
        (by
          intro t ht q hq
          obtain ⟨vt, hvt⟩ := hMid t ht
          have hiv := (invert_of_val hvt).2.1
          rcases List.mem_cons.mp hq with rfl | hq2
          · have htb : vt < vb := (cmp_val_val_lt hvt hvb).mp (hmidb t ht)
            exact (cmp_val_val_lt hiv (invert_of_val hvb).2.1).mpr htb
          · simp at hq2
            subst hq2
            exact cmp_val_lt_top hiv)
      have hne2 : ¬ b = Tine.Upper Bound.Infinite := by
        intro h
        subst h
        simp [Tine.key] at hvb
      rw [if_neg hne2]
      simpa using hfold
  · rcases hB with rfl | ⟨vb, hvb⟩
    · -- lower end finite, upper end infinite
      rw [TineTree.complement_first_val hva, Option.some_bind,
        TineTree.complement_last_inf, Option.some_bind]
      have hne1 : ¬ a = Tine.Lower Bound.Infinite := by
        intro h
        subst h
        simp [Tine.key] at hva
      have hfold := TineTree.complement_fold_spec mid
        [Tine.Lower Bound.Infinite, invertF a] [] hMid hpairmid
        (by
          intro t ht p hp
          obtain ⟨vt, hvt⟩ := hMid t ht
          have hiv := (invert_of_val hvt).2.1
          rcases List.mem_cons.mp hp with rfl | hp2
          · exact cmp_val_gt_bot hiv
          · simp at hp2
            subst hp2
            have hat : va < vt := (cmp_val_val_lt hva hvt).mp (hamid t ht)
            exact (cmp_val_val_gt hiv (invert_of_val hva).2.1).mpr hat)
        (by intro t ht q hq; simp at hq)
      rw [if_neg hne1]
      simpa using hfold
    · -- both ends finite
      have hne1 : ¬ a = Tine.Lower Bound.Infinite := by
        intro h
        subst h
        simp [Tine.key] at hva
      have hne2 : ¬ b = Tine.Upper Bound.Infinite := by
        intro h
        subst h
        simp [Tine.key] at hvb
      rw [TineTree.complement_first_val hva, Option.some_bind,
        TineTree.complement_last_val hvb
          (by
            intro p hp
            rcases List.mem_cons.mp hp with rfl | hp2
            · exact cmp_top_gt_bot
            · simp at hp2
              subst hp2
              exact cmp_top_gt_val (invert_of_val hva).2.1)
          (by
            intro p hp
            have hvab : va < vb := (cmp_val_val_lt hva hvb).mp hab
            rcases List.mem_cons.mp hp with rfl | hp2
            · exact cmp_val_gt_bot (invert_of_val hvb).2.1
            · simp at hp2
              subst hp2
              exact (cmp_val_val_gt (invert_of_val hvb).2.1
                (invert_of_val hva).2.1).mpr hvab),
        Option.some_bind]
      have hfold := TineTree.complement_fold_spec mid
        [Tine.Lower Bound.Infinite, invertF a]
        [invertF b, Tine.Upper Bound.Infinite] hMid hpairmid
        (by
          intro t ht p hp
          obtain ⟨vt, hvt⟩ := hMid t ht
          have hiv := (invert_of_val hvt).2.1
          rcases List.mem_cons.mp hp with rfl | hp2
          · exact cmp_val_gt_bot hiv
          · simp at hp2
            subst hp2
            have hat : va < vt := (cmp_val_val_lt hva hvt).mp (hamid t ht)
            exact (cmp_val_val_gt hiv (invert_of_val hva).2.1).mpr hat)
        (by
          intro t ht q hq
          obtain ⟨vt, hvt⟩ := hMid t ht
          have hiv := (invert_of_val hvt).2.1
          rcases List.mem_cons.mp hq with rfl | hq2
          · have htb : vt < vb := (cmp_val_val_lt hvt hvb).mp (hmidb t ht)
            exact (cmp_val_val_lt hiv (invert_of_val hvb).2.1).mpr htb
          · simp at hq2
            subst hq2
            exact cmp_val_lt_top hiv)
      rw [if_neg hne1, if_neg hne2]
      exact hfold

theorem cmp_bot_lt_val [LinearOrder T] {t : Tine T} {v : T} (h : t.key = TKey.val v) :
    Tine.cmp (Tine.Lower Bound.Infinite) t = .lt := by
  rw [Tine.cmp_eq_key _ _ (by rfl) (legal_of_val h), h]; rfl

theorem cmp_bot_lt_top [LinearOrder T] :
    Tine.cmp (Tine.Lower (Bound.Infinite : Bound T)) (Tine.Upper Bound.Infinite) = .lt :=
  rfl

theorem ne_LInf_of_val {t : Tine T} {v : T} (h : t.key = TKey.val v) :
    t ≠ Tine.Lower Bound.Infinite := by
  intro he
  subst he
  simp [Tine.key] at h

theorem ne_UInf_of_val {t : Tine T} {v : T} (h : t.key = TKey.val v) :
    t ≠ Tine.Upper Bound.Infinite := by
  intro he
  subst he
  simp [Tine.key] at h

theorem invertF_invertF {t : Tine T} {v : T} (h : t.key = TKey.val v) :
    invertF (invertF t) = t := by
  cases t <;> rename_i b <;> cases b <;> simp_all [invertF, Tine.invert, Tine.key]

theorem map_invertF_invertF {l : List (Tine T)}
    (h : ∀ t ∈ l, ∃ v, t.key = TKey.val v) :
    (l.map invertF).map invertF = l := by
  induction l with
  | nil => rfl
  | cons t rest ih =>
    obtain ⟨v, hv⟩ := h t (by simp)
    simp only [List.map_cons, invertF_invertF hv]
    rw [ih (fun u hu => h u (by simp [hu]))]

theorem pairwise_map_invertF [LinearOrder T] {l : List (Tine T)}
    (hval : ∀ t ∈ l, ∃ v, t.key = TKey.val v)
    (hp : List.Pairwise (fun x y => Tine.cmp x y = .lt) l) :
    List.Pairwise (fun x y => Tine.cmp x y = .lt) (l.map invertF) := by
  rw [List.pairwise_map]
  refine List.Pairwise.imp_of_mem ?_ hp
  intro x y hx hy hxy
  obtain ⟨vx, hvx⟩ := hval x hx
  obtain ⟨vy, hvy⟩ := hval y hy
  exact (cmp_val_val_lt (invert_of_val hvx).2.1 (invert_of_val hvy).2.1).mpr
    ((cmp_val_val_lt hvx hvy).mp hxy)

/-- Sortedness of a tree of the shape: optional `Lower(Infinite)`, then
finite tines, then optional `Upper(Infinite)`. -/
theorem sorted_out [LinearOrder T] (x y : Bool) {fin : List (Tine T)}
    (hfin : ∀ t ∈ fin, ∃ v, t.key = TKey.val v)
    (hp : List.Pairwise (fun a b => Tine.cmp a b = .lt) fin) :
    SortedT ((if x then [Tine.Lower Bound.Infinite] else []) ++ fin ++
      (if y then [Tine.Upper Bound.Infinite] else [])) := by
  have hend : List.Pairwise (fun a b => Tine.cmp a b = .lt)
      (fin ++ (if y then [Tine.Upper Bound.Infinite] else [])) := by
    cases y with
    | false => simpa using hp
    | true =>
      simp only [if_pos]
      refine List.pairwise_append.mpr ⟨hp, List.pairwise_singleton _ _, ?_⟩
      intro t ht u hu
      simp at hu
      subst hu
      obtain ⟨v, hv⟩ := hfin t ht
      exact cmp_val_lt_top hv
  cases x with
  | false => simpa [SortedT] using hend
  | true =>
    simp only [if_pos, List.singleton_append]
    refine List.Pairwise.cons ?_ hend
    intro u hu
    rcases List.mem_append.mp hu with hu1 | hu2
    · obtain ⟨v, hv⟩ := hfin u hu1
      exact cmp_bot_lt_val hv
    · cases y with
      | false => simp at hu2
      | true =>
        simp at hu2
        subst hu2
        exact cmp_bot_lt_top

/-- The symmetric form of the complement characterization: complementing
flips the presence of the infinite end tines and inverts every finite
tine. -/
theorem complement_spec2 [LinearOrder T] (x y : Bool) (fin : List (Tine T))
    (hfin : ∀ t ∈ fin, ∃ v, t.key = TKey.val v)
    (hp : List.Pairwise (fun a b => Tine.cmp a b = .lt) fin)
    (hlen : 2 ≤ ((if x then [Tine.Lower Bound.Infinite] else []) ++ fin ++
      (if y then [Tine.Upper Bound.Infinite] else [])).length) :
    TineTree.complement ((if x then [Tine.Lower Bound.Infinite] else []) ++ fin ++
        (if y then [Tine.Upper Bound.Infinite] else [])) =
      some ((if x then [] else [Tine.Lower Bound.Infinite]) ++ fin.map invertF ++
        (if y then [] else [Tine.Upper Bound.Infinite])) := by
  have hsort := sorted_out x y hfin hp
  cases x with
  | true =>
    cases y with
    | true =>
      -- LInf :: fin ++ [UInf]
      have h := complement_spec (Tine.Lower Bound.Infinite) (Tine.Upper Bound.Infinite)
        fin (by simpa using hsort) (Or.inl rfl) (Or.inl rfl) hfin
      simpa using h
    | false =>
      -- LInf :: fin, with fin nonempty
      have hne : fin ≠ [] := by
        intro he
        subst he
        simp at hlen
      obtain ⟨mid, b, hmb⟩ : ∃ mid b, fin = mid ++ [b] := by
        rcases List.eq_nil_or_concat fin with he | ⟨mid, b, he⟩
        · exact absurd he hne
        · exact ⟨mid, b, by simpa [List.concat_eq_append] using he⟩
      subst hmb
      obtain ⟨vb, hvb⟩ := hfin b (by simp)
      have h := complement_spec (Tine.Lower Bound.Infinite) b mid
        (by simpa using hsort) (Or.inl rfl) (Or.inr ⟨vb, hvb⟩)
        (fun t ht => hfin t (by simp [ht]))
      rw [if_pos rfl, if_neg (ne_UInf_of_val hvb)] at h
      simp only [if_pos]
      simpa using h
  | false =>
    cases y with
    | true =>
      -- fin ++ [UInf], with fin nonempty
      have hne : fin ≠ [] := by
        intro he
        subst he
        simp at hlen
      obtain ⟨a, mid, hmb⟩ : ∃ a mid, fin = a :: mid := by
        cases fin with
        | nil => exact absurd rfl hne
        | cons a mid => exact ⟨a, mid, rfl⟩
      subst hmb
      obtain ⟨va, hva⟩ := hfin a (by simp)
      have h := complement_spec a (Tine.Upper Bound.Infinite) mid
        (by simpa using hsort) (Or.inr ⟨va, hva⟩) (Or.inl rfl)
        (fun t ht => hfin t (by simp [ht]))
      rw [if_neg (ne_LInf_of_val hva), if_pos rfl] at h
      simpa using h
    | false =>
      -- fin alone, length ≥ 2
      have hlen2 : 2 ≤ fin.length := by simpa using hlen
      obtain ⟨a, rest, har⟩ : ∃ a rest, fin = a :: rest := by
        cases fin with
        | nil => simp at hlen2
        | cons a rest => exact ⟨a, rest, rfl⟩
      subst har
      have hne : rest ≠ [] := by
        intro he
        subst he
        simp at hlen2
      obtain ⟨mid, b, hmb⟩ : ∃ mid b, rest = mid ++ [b] := by
        rcases List.eq_nil_or_concat rest with he | ⟨mid, b, he⟩
        · exact absurd he hne
        · exact ⟨mid, b, by simpa [List.concat_eq_append] using he⟩
      subst hmb
      obtain ⟨va, hva⟩ := hfin a (by simp)
      obtain ⟨vb, hvb⟩ := hfin b (by simp)
      have h := complement_spec a b mid
        (by simpa using hsort) (Or.inr ⟨va, hva⟩) (Or.inr ⟨vb, hvb⟩)
        (fun t ht => hfin t (by simp [ht]))
      rw [if_neg (ne_LInf_of_val hva), if_neg (ne_UInf_of_val hvb)] at h
      simpa using h

theorem tape_singleton {t : Tine T} (h : tscan false [t] = some false) :
    ∃ p, t = Tine.Point (Bound.Include p) := by
  simp only [tscan] at h
  cases hstep : tstep false t with
  | none => rw [hstep] at h; simp at h
  | some st =>
    rw [hstep] at h
    simp at h
    subst h
    cases t <;> rename_i b <;> cases b <;> simp_all [tstep] <;> exact ⟨_, rfl⟩

theorem tape_first_step {t : Tine T} {rest : List (Tine T)}
    (h : tscan false (t :: rest) = some false) :
    ∃ st1, tstep false t = some st1 ∧ tscan st1 rest = some false := by
  simp only [tscan] at h
  cases hstep : tstep false t with
  | none => rw [hstep] at h; simp at h
  | some st1 =>
    rw [hstep] at h
    simp only [Option.some_bind] at h
    exact ⟨st1, rfl, h⟩

theorem tape_last_step {st1 : Bool} {mid : List (Tine T)} {b : Tine T}
    (h : tscan st1 (mid ++ [b]) = some false) :
    ∃ st2, tscan st1 mid = some st2 ∧ tstep st2 b = some false := by
  rw [tscan_append] at h
  cases hsc : tscan st1 mid with
  | none => rw [hsc] at h; simp at h
  | some st2 =>
    rw [hsc] at h
    simp only [Option.some_bind, tscan] at h
    cases hsb : tstep st2 b with
    | none => rw [hsb] at h; simp at h
    | some st3 =>
      rw [hsb] at h
      simp at h
      subst h
      exact ⟨st2, rfl, hsb⟩

/-- C8: double complement is the identity on canonical trees. -/
theorem claim_C8_double_complement [LinearOrder T] (s : List (Tine T))
    (hc : Canonical s) :
    ∃ c, TineTree.complement s = some c ∧ TineTree.complement c = some s := by
  obtain ⟨hsort, htape⟩ := hc
  cases s with
  | nil =>
    refine ⟨[Tine.Lower Bound.Infinite, Tine.Upper Bound.Infinite], rfl, ?_⟩
    have h2 := complement_spec2 true true ([] : List (Tine T)) (by simp) (by simp)
      (by simp)
    simpa using h2
  | cons t rest =>
    cases rest with
    | nil =>
      obtain ⟨p, rfl⟩ := tape_singleton htape
      refine ⟨[Tine.Lower Bound.Infinite, Tine.Point (Bound.Exclude p),
        Tine.Upper Bound.Infinite], rfl, ?_⟩
      have h2 := complement_spec2 true true [Tine.Point (Bound.Exclude p)]
        (by intro u hu; simp at hu; subst hu; exact ⟨p, rfl⟩)
        (List.pairwise_singleton _ _) (by simp)
      simpa [invertF, Tine.invert] using h2
    | cons t2 rest2 =>
      obtain ⟨mid, b, hmb⟩ : ∃ mid b, t2 :: rest2 = mid ++ [b] := by
        rcases List.eq_nil_or_concat (t2 :: rest2) with he | ⟨mid, b, he⟩
        · simp at he
        · exact ⟨mid, b, by simpa [List.concat_eq_append] using he⟩
      rw [hmb] at hsort htape ⊢
      obtain ⟨st1, hstep1, hrest⟩ := tape_first_step htape
      obtain ⟨st2, hsc, hstepb⟩ := tape_last_step hrest
      have hlegal : ∀ u ∈ t :: mid ++ [b], u.legal = true := tscan_legal htape
      have hlegt : t.legal = true := hlegal t (by simp)
      have hlegb : b.legal = true := hlegal b (by simp)
      have hpair1 := List.pairwise_cons.mp hsort
      have hsplit := List.pairwise_append.mp hpair1.2
      have hMid : ∀ u ∈ mid, ∃ v, u.key = TKey.val v := by
        intro u hu
        have hlegu : u.legal = true := hlegal u (by simp [hu])
        have h1 : Tine.cmp t u = .lt := hpair1.1 u (by simp [hu])
        have h2 : Tine.cmp u b = .lt := hsplit.2.2 u hu b (by simp)
        rw [Tine.cmp_eq_key _ _ hlegt hlegu] at h1
        rw [Tine.cmp_eq_key _ _ hlegu hlegb] at h2
        exact val_of_between h1 h2
      have hA := tstep_start_shape hstep1
      have hB := tstep_end_shape hstepb
      rcases hA with rfl | ⟨va, hva⟩
      · rcases hB with rfl | ⟨vb, hvb⟩
        · -- both ends infinite
          have hpmid : List.Pairwise (fun a b => Tine.cmp a b = .lt) mid := hsplit.1
          have hc1 := complement_spec2 true true mid hMid hpmid (by simp)
          refine ⟨mid.map invertF, by simpa using hc1, ?_⟩
          cases mid with
          | nil => rfl
          | cons m mrest =>
            cases mrest with
            | nil =>
              -- complement of a single inverted tine
              obtain ⟨v, hv⟩ := hMid m (by simp)
              have hkey := (invert_of_val hv).2.1
              have hstepA : sInsert m (sInsert (Tine.Lower Bound.Infinite) []) =
                  [Tine.Lower Bound.Infinite, m] := by
                rw [sInsert_nil]
                have h3 := sInsert_end (x := m) (P := [Tine.Lower Bound.Infinite])
                  (by intro q hq; simp at hq; subst hq; exact cmp_val_gt_bot hv)
                simpa using h3
              have hstepB : sInsert (Tine.Upper Bound.Infinite)
                  [Tine.Lower Bound.Infinite, m] =
                  [Tine.Lower Bound.Infinite, m, Tine.Upper Bound.Infinite] := by
                have h3 := sInsert_end (x := Tine.Upper Bound.Infinite)
                  (P := [Tine.Lower Bound.Infinite, m])
                  (by
                    intro q hq
                    rcases List.mem_cons.mp hq with rfl | hq2
                    · exact cmp_top_gt_bot
                    · simp at hq2
                      subst hq2
                      exact cmp_top_gt_val hv)
                simpa using h3
              show TineTree.complement [invertF m] = _
              rw [TineTree.complement.eq_def, if_neg (by simp), if_pos (by simp)]
              show ((invertF m).invert).map
                  (fun t2 => sInsert (.Upper .Infinite)
                    (sInsert t2 (sInsert (.Lower .Infinite) []))) = _
              rw [invert_invertF hv]
              show some (sInsert (Tine.Upper Bound.Infinite)
                (sInsert m (sInsert (Tine.Lower Bound.Infinite) []))) = _
              rw [hstepA, hstepB]
              simp
            | cons m2 mrest2 =>
              have hc2 := complement_spec2 false false
                ((m :: m2 :: mrest2).map invertF)
                (by
                  intro u hu
                  simp only [List.mem_map] at hu
                  obtain ⟨w, hw, rfl⟩ := hu
                  obtain ⟨v, hv⟩ := hMid w hw
                  exact ⟨v, (invert_of_val hv).2.1⟩)
                (pairwise_map_invertF hMid hpmid)
                (by simp)
              rw [map_invertF_invertF hMid] at hc2
              simpa using hc2
        · -- lower end infinite, upper end finite
          have hfin : ∀ u ∈ mid ++ [b], ∃ v, u.key = TKey.val v := by
            intro u hu
            rcases List.mem_append.mp hu with hu1 | hu2
            · exact hMid u hu1
            · simp at hu2
              subst hu2
              exact ⟨vb, hvb⟩
          have hpfin : List.Pairwise (fun a b => Tine.cmp a b = .lt) (mid ++ [b]) :=
            hpair1.2
          have hc1 := complement_spec2 true false (mid ++ [b]) hfin hpfin (by simp)
          refine ⟨(mid ++ [b]).map invertF ++ [Tine.Upper Bound.Infinite],
            by simpa using hc1, ?_⟩
          have hc2 := complement_spec2 false true ((mid ++ [b]).map invertF)
            (by
              intro u hu
              simp only [List.mem_map] at hu
              obtain ⟨w, hw, rfl⟩ := hu
              obtain ⟨v, hv⟩ := hfin w hw
              exact ⟨v, (invert_of_val hv).2.1⟩)
            (pairwise_map_invertF hfin hpfin)
            (by simp)
          rw [map_invertF_invertF hfin] at hc2
          simpa using hc2
      · rcases hB with rfl | ⟨vb, hvb⟩
        · -- lower end infinite, upper end finite: impossible shape for t here
          -- (this branch has t = Lower(Infinite)? no: t is finite va)
          -- t finite, b = Upper(Infinite)
          have hfin : ∀ u ∈ t :: mid, ∃ v, u.key = TKey.val v := by
            intro u hu
            rcases List.mem_cons.mp hu with rfl | hu2
            · exact ⟨va, hva⟩
            · exact hMid u hu2
          have hsub : (t :: mid).Sublist (t :: (mid ++ [Tine.Upper Bound.Infinite])) := by
            have h := List.sublist_append_left (t :: mid) [Tine.Upper Bound.Infinite]
            simp only [List.cons_append] at h
            exact h
          have hpfin : List.Pairwise (fun a b => Tine.cmp a b = .lt) (t :: mid) :=
            List.Pairwise.sublist hsub hsort
          have hc1 := complement_spec2 false true (t :: mid) hfin hpfin (by simp)
          refine ⟨Tine.Lower Bound.Infinite :: (t :: mid).map invertF,
            by simpa using hc1, ?_⟩
          have hc2 := complement_spec2 true false ((t :: mid).map invertF)
            (by
              intro u hu
              simp only [List.mem_map] at hu
              obtain ⟨w, hw, rfl⟩ := hu
              obtain ⟨v, hv⟩ := hfin w hw
              exact ⟨v, (invert_of_val hv).2.1⟩)
            (pairwise_map_invertF hfin hpfin)
            (by simp)
          rw [map_invertF_invertF hfin] at hc2
          simpa using hc2
        · -- t finite, b finite
          have hfin : ∀ u ∈ t :: mid ++ [b], ∃ v, u.key = TKey.val v := by
            intro u hu
            rcases List.mem_cons.mp hu with rfl | hu2
            · exact ⟨va, hva⟩
            · rcases List.mem_append.mp hu2 with hu3 | hu4
              · exact hMid u hu3
              · simp at hu4
                subst hu4
                exact ⟨vb, hvb⟩
          have hc1 := complement_spec2 false false (t :: mid ++ [b]) hfin hsort
            (by simp)
          refine ⟨Tine.Lower Bound.Infinite ::
            ((t :: mid ++ [b]).map invertF ++ [Tine.Upper Bound.Infinite]),
            by simpa using hc1, ?_⟩
          have hc2 := complement_spec2 true true ((t :: mid ++ [b]).map invertF)
            (by
              intro u hu
              simp only [List.mem_map] at hu
              obtain ⟨w, hw, rfl⟩ := hu
              obtain ⟨v, hv⟩ := hfin w hw
              exact ⟨v, (invert_of_val hv).2.1⟩)
            (pairwise_map_invertF hfin hsort)
            (by simp)
          rw [map_invertF_invertF hfin] at hc2
          simpa using hc2

/-- Witness for C8 at the concrete canonical tree `{3}` over the
integers. -/
theorem claim_C8_witness :
    ∃ c, TineTree.complement [Tine.Point (Bound.Include (3 : ℤ))] = some c ∧
      TineTree.complement c = some [Tine.Point (Bound.Include 3)] :=
  claim_C8_double_complement [Tine.Point (Bound.Include (3 : ℤ))] (by decide)

/-! ### Round-trip: decode and the fold reconstruction -/

/-- The interval sequence denoted by a canonical tine list: the pure
specification of forward iteration.  A `Point(Exclude)` tine is re-read
as the lower bound of the following interval. -/
def decode [LinearOrder T] : List (Tine T) → List (RawInterval T)
  | [] => []
  | Tine.Point (Bound.Include p) :: rest => RawInterval.Point p :: decode rest
  | _ :: [] => []
  | t :: u :: rest =>
    RawInterval.new t.into_inner u.into_inner ::
      (if u.is_point_exclude then decode (u :: rest) else decode rest)

theorem sTake_none [LinearOrder T] {x : Tine T} {s : List (Tine T)}
    (h : ∀ p ∈ s, Tine.cmp x p = .gt) : sTake x s = (none, s) := by
  induction s with
  | nil => rfl
  | cons a l ih =>
    have ha := h a (by simp)
    simp only [sTake, ha]
    rw [ih (fun p hp => h p (by simp [hp]))]

theorem sTake_at_end [LinearOrder T] {x e : Tine T} {P : List (Tine T)}
    (h : ∀ p ∈ P, Tine.cmp x p = .gt) (he : Tine.cmp x e = .eq) :
    sTake x (P ++ [e]) = (some e, P) := by
  induction P with
  | nil => simp [sTake, he]
  | cons a l ih =>
    have ha := h a (by simp)
    simp only [List.cons_append, sTake, ha, List.append_eq]
    rw [ih (fun p hp => h p (by simp [hp]))]

theorem sSplitOff_all_lt [LinearOrder T] {x : Tine T} {s : List (Tine T)}
    (h : ∀ p ∈ s, Tine.cmp p x = .lt) : sSplitOff x s = (s, []) := by
  induction s with
  | nil => rfl
  | cons a l ih =>
    have ha := h a (by simp)
    simp only [sSplitOff, ha]
    rw [ih (fun p hp => h p (by simp [hp]))]

/-- After a tape step, the consumed tine is lower-like iff the outgoing
state is inside. -/
theorem tstep_lower_out {st st2 : Bool} {t : Tine T} (h : tstep st t = some st2) :
    t.is_lower_bound = st2 := by
  cases st <;> cases t <;> rename_i b <;> cases b <;>
    simp_all [tstep, Tine.is_lower_bound]

/-- After a tape step, the consumed tine is upper-like iff the incoming
state was inside. -/
theorem tstep_upper_in {st st2 : Bool} {t : Tine T} (h : tstep st t = some st2) :
    t.is_upper_bound = st := by
  cases st <;> cases t <;> rename_i b <;> cases b <;>
    simp_all [tstep, Tine.is_upper_bound]

/-- The inside/outside state after scanning a prefix equals the
lower-likeness of its last tine. -/
theorem tscan_last_lower {pre : List (Tine T)} {st : Bool}
    (h : tscan false pre = some st) :
    ((pre.getLast?.map Tine.is_lower_bound).getD false) = st := by
  induction pre using List.reverseRecOn generalizing st with
  | nil => simp only [tscan] at h; simp_all
  | append_singleton l t ih =>
    rw [tscan_append] at h
    cases hsc : tscan false l with
    | none => rw [hsc] at h; simp at h
    | some st0 =>
      rw [hsc] at h
      simp only [Option.some_bind, tscan] at h
      cases hsb : tstep st0 t with
      | none => rw [hsb] at h; simp at h
      | some st3 =>
        rw [hsb] at h
        simp at h
        subst h
        simp [tstep_lower_out hsb]

/-- Decomposing `RawInterval.new` back into its two tines: valid for
every pair of bounds whose keys are strictly ordered. -/
theorem from_raw_new [LinearOrder T] (bl bu : Bound T)
    (h : TKey.cmpk (Tine.Lower bl).key (Tine.Upper bu).key = .lt) :
    Tine.from_raw_interval (RawInterval.new bl bu) =
      Split.Two (Tine.Lower bl) (Tine.Upper bu) := by
  cases bl <;> cases bu <;>
    simp_all [Tine.key, TKey.cmpk, Tine.cmpv_lt_iff, RawInterval.new,
      Tine.from_raw_interval]

theorem new_not_full [LinearOrder T] {bl bu : Bound T}
    (h : ¬(bl = Bound.Infinite ∧ bu = Bound.Infinite)) :
    (RawInterval.new bl bu).is_full = false := by
  cases bl <;> cases bu <;>
    simp_all [RawInterval.new, RawInterval.is_full] <;>
    split_ifs <;> simp [RawInterval.is_full]

theorem union_in_place_proper [LinearOrder T] {bl bu : Bound T}
    (acc : List (Tine T))
    (hnf : (RawInterval.new bl bu).is_full = false)
    (hfr : Tine.from_raw_interval (RawInterval.new bl bu) =
      Split.Two (Tine.Lower bl) (Tine.Upper bu)) :
    TineTree.union_in_place acc (RawInterval.new bl bu) =
      TineTree.union_proper_interval acc (Tine.Lower bl) (Tine.Upper bu) := by
  unfold TineTree.union_in_place
  rw [hnf, hfr]
  rfl

theorem sSplitOff_nil [LinearOrder T] (x : Tine T) :
    sSplitOff x ([] : List (Tine T)) = ([], []) := rfl

/-- `union_proper_interval` appends a fresh interval strictly above the
whole tree when the tree's last tine is not lower-like. -/
theorem union_proper_fresh [LinearOrder T] {pre : List (Tine T)} {l u : Tine T}
    (hpl : ∀ p ∈ pre, Tine.cmp p l = .lt)
    (hgl : ∀ p ∈ pre, Tine.cmp l p = .gt)
    (hgu : ∀ p ∈ pre, Tine.cmp u p = .gt)
    (hul : Tine.cmp u l = .gt)
    (hnl : ((pre.getLast?.map Tine.is_lower_bound).getD false) = false) :
    TineTree.union_proper_interval pre l u = some (pre ++ [l, u]) := by
  have hiu : sInsert u (pre ++ [l]) = pre ++ [l, u] := by
    have h2 := sInsert_end (x := u) (P := pre ++ [l])
      (by
        intro p hp
        rcases List.mem_append.mp hp with hp1 | hp2
        · exact hgu p hp1
        · simp at hp2
          subst hp2
          exact hul)
    rw [h2]
    simp
  simp only [TineTree.union_proper_interval, TineTree.exterior_split_for_proper_interval,
    sTake_none hgl, sTake_none hgu, sSplitOff_all_lt hpl, sSplitOff_nil,
    List.getLast?_nil, List.head?_nil, List.append_nil, Option.map_none',
    Option.getD_none, hnl]
  simp only [sInsert_end hgl, hiu]

/-- `union_proper_interval` rebuilds the puncture when the incoming
lower tine collides with the tree's last tine `Upper(Exclude k)`. -/
theorem union_proper_puncture [LinearOrder T] {pre : List (Tine T)} {k : T} {u : Tine T}
    (hpl : ∀ p ∈ pre, Tine.cmp p (Tine.Lower (Bound.Exclude k)) = .lt)
    (hgl : ∀ p ∈ pre, Tine.cmp (Tine.Lower (Bound.Exclude k)) p = .gt)
    (hgp : ∀ p ∈ pre, Tine.cmp (Tine.Point (Bound.Exclude k)) p = .gt)
    (hgu : ∀ p ∈ pre, Tine.cmp u p = .gt)
    (hgu2 : Tine.cmp u (Tine.Point (Bound.Exclude k)) = .gt)
    (hll : ((pre.getLast?.map Tine.is_lower_bound).getD false) = true) :
    TineTree.union_proper_interval (pre ++ [Tine.Upper (Bound.Exclude k)])
        (Tine.Lower (Bound.Exclude k)) u =
      some (pre ++ [Tine.Point (Bound.Exclude k), u]) := by
  have heq : Tine.cmp (Tine.Lower (Bound.Exclude k)) (Tine.Upper (Bound.Exclude k)) =
      .eq := Tine.cmpv_self k
  have htk := sTake_at_end (P := pre) hgl heq
  have hiu : sInsert u (pre ++ [Tine.Point (Bound.Exclude k)]) =
      pre ++ [Tine.Point (Bound.Exclude k), u] := by
    have h2 := sInsert_end (x := u) (P := pre ++ [Tine.Point (Bound.Exclude k)])
      (by
        intro p hp
        rcases List.mem_append.mp hp with hp1 | hp2
        · exact hgu p hp1
        · simp at hp2
          subst hp2
          exact hgu2)
    rw [h2]
    simp
  simp only [TineTree.union_proper_interval, TineTree.exterior_split_for_proper_interval,
    htk, sTake_none hgu, sSplitOff_all_lt hpl, sSplitOff_nil,
    List.getLast?_nil, List.head?_nil, List.append_nil, Option.map_none',
    Option.getD_none, hll]
  simp only [Tine.union, Tine.is_upper_bound, if_pos, sInsert_end hgp, hiu]

/-- `union_point_interval` appends a fresh point strictly above the
whole tree when the tree's last tine is not lower-like. -/
theorem union_point_fresh [LinearOrder T] {pre : List (Tine T)} {q : T}
    (hpl : ∀ p ∈ pre, Tine.cmp p (Tine.Point (Bound.Include q)) = .lt)
    (hgl : ∀ p ∈ pre, Tine.cmp (Tine.Point (Bound.Include q)) p = .gt)
    (hnl : ((pre.getLast?.map Tine.is_lower_bound).getD false) = false) :
    TineTree.union_point_interval pre (Tine.Point (Bound.Include q)) =
      some (pre ++ [Tine.Point (Bound.Include q)]) := by
  simp only [TineTree.union_point_interval, TineTree.exterior_split_for_point_interval,
    sTake_none hgl, sSplitOff_all_lt hpl,
    List.getLast?_nil, List.head?_nil, List.append_nil, Option.map_none',
    Option.getD_none, hnl]
  simp only [sInsert_end hgl]

theorem tape_step {st fin : Bool} {t : Tine T} {rest : List (Tine T)}
    (h : tscan st (t :: rest) = some fin) :
    ∃ st1, tstep st t = some st1 ∧ tscan st1 rest = some fin := by
  simp only [tscan] at h
  cases hstep : tstep st t with
  | none => rw [hstep] at h; simp at h
  | some st1 =>
    rw [hstep] at h
    simp only [Option.some_bind] at h
    exact ⟨st1, rfl, h⟩

/-- Forward iteration of a canonical tree yields exactly its decoded
interval sequence (fuel-generic form, tracking the saved puncture). -/
theorem collect_decode [LinearOrder T] :
    ∀ (n : Nat) (rem : List (Tine T)) (sl : Option (Tine T)),
      rem.length < n →
      ((sl = none ∧ tscan false rem = some false) ∨
        (∃ k, sl = some (Tine.Point (Bound.Exclude k)) ∧ rem ≠ [] ∧
          tscan true rem = some false)) →
      TineTree.collectF n ⟨rem, sl, none⟩ = some (decode (sl.toList ++ rem)) := by
  intro n
  induction n with
  | zero => intro rem sl hlen _; omega
  | succ n ih =>
    intro rem sl hlen hinv
    rcases hinv with ⟨rfl, htape⟩ | ⟨k, rfl, hne, htape⟩
    · cases rem with
      | nil => rfl
      | cons t rest =>
        obtain ⟨st1, hstep1, hrest⟩ := tape_step htape
        cases t with
        | Point bp =>
          cases bp with
          | Include p =>
            have hst1 : st1 = false := by
              simp [tstep] at hstep1
              first | exact hstep1 | exact hstep1.symm
            subst hst1
            have step : TineTree.collectF (n + 1)
                ⟨Tine.Point (Bound.Include p) :: rest, none, none⟩ =
                (TineTree.collectF n ⟨rest, none, none⟩).map
                  (RawInterval.Point p :: ·) := rfl
            rw [step, ih rest none (by simp only [List.length_cons] at hlen; omega) (Or.inl ⟨rfl, hrest⟩)]
            simp [decode, Tine.into_inner, Tine.is_point_exclude]
          | Exclude p => simp [tstep] at hstep1
          | Infinite => simp [tstep] at hstep1
        | Upper b => simp [tstep] at hstep1
        | Lower b =>
          have hst1 : st1 = true := by
            simp [tstep] at hstep1
            first | exact hstep1 | exact hstep1.symm
          subst hst1
          cases rest with
          | nil => simp [tscan] at hrest
          | cons u rest2 =>
            obtain ⟨st2, hstep2, hrest2⟩ := tape_step hrest
            cases u with
            | Lower b2 => simp [tstep] at hstep2
            | Upper bu =>
              have hst2 : st2 = false := by
                simp [tstep] at hstep2
                first | exact hstep2 | exact hstep2.symm
              subst hst2
              have step : TineTree.collectF (n + 1)
                  ⟨Tine.Lower b :: Tine.Upper bu :: rest2, none, none⟩ =
                  (TineTree.collectF n ⟨rest2, none, none⟩).map
                    (RawInterval.new b bu :: ·) := rfl
              rw [step, ih rest2 none (by simp only [List.length_cons] at hlen; omega)
                (Or.inl ⟨rfl, hrest2⟩)]
              simp [decode, Tine.into_inner, Tine.is_point_exclude]
            | Point bp2 =>
              cases bp2 with
              | Include m => simp [tstep] at hstep2
              | Infinite => simp [tstep] at hstep2
              | Exclude m =>
                have hst2 : st2 = true := by
                  simp [tstep] at hstep2
                  first | exact hstep2 | exact hstep2.symm
                subst hst2
                have hne2 : rest2 ≠ [] := by
                  intro he
                  subst he
                  simp [tscan] at hrest2
                have step : TineTree.collectF (n + 1)
                    ⟨Tine.Lower b :: Tine.Point (Bound.Exclude m) :: rest2,
                      none, none⟩ =
                    (TineTree.collectF n
                        ⟨rest2, some (Tine.Point (Bound.Exclude m)), none⟩).map
                      (RawInterval.new b (Bound.Exclude m) :: ·) := rfl
                rw [step, ih rest2 (some (Tine.Point (Bound.Exclude m)))
                  (by simp only [List.length_cons] at hlen; omega) (Or.inr ⟨m, rfl, hne2, hrest2⟩)]
                simp [decode, Tine.into_inner, Tine.is_point_exclude]
    · cases rem with
      | nil => exact absurd rfl hne
      | cons u rest2 =>
        obtain ⟨st2, hstep2, hrest2⟩ := tape_step htape
        cases u with
        | Lower b2 => simp [tstep] at hstep2
        | Upper bu =>
          have hst2 : st2 = false := by
            simp [tstep] at hstep2
            first | exact hstep2 | exact hstep2.symm
          subst hst2
          have step : TineTree.collectF (n + 1)
              ⟨Tine.Upper bu :: rest2, some (Tine.Point (Bound.Exclude k)), none⟩ =
              (TineTree.collectF n ⟨rest2, none, none⟩).map
                (RawInterval.new (Bound.Exclude k) bu :: ·) := rfl
          rw [step, ih rest2 none (by simp only [List.length_cons] at hlen; omega) (Or.inl ⟨rfl, hrest2⟩)]
          simp [decode, Tine.into_inner, Tine.is_point_exclude]
        | Point bp2 =>
          cases bp2 with
          | Include m => simp [tstep] at hstep2
          | Infinite => simp [tstep] at hstep2
          | Exclude m =>
            have hst2 : st2 = true := by
              simp [tstep] at hstep2
              first | exact hstep2 | exact hstep2.symm
            subst hst2
            have hne2 : rest2 ≠ [] := by
              intro he
              subst he
              simp [tscan] at hrest2
            have step : TineTree.collectF (n + 1)
                ⟨Tine.Point (Bound.Exclude m) :: rest2,
                  some (Tine.Point (Bound.Exclude k)), none⟩ =
                (TineTree.collectF n
                    ⟨rest2, some (Tine.Point (Bound.Exclude m)), none⟩).map
                  (RawInterval.new (Bound.Exclude k) (Bound.Exclude m) :: ·) := rfl
            rw [step, ih rest2 (some (Tine.Point (Bound.Exclude m)))
              (by simp only [List.length_cons] at hlen; omega) (Or.inr ⟨m, rfl, hne2, hrest2⟩)]
            simp [decode, Tine.into_inner, Tine.is_point_exclude]

/-- Forward iteration of a canonical tree succeeds and yields the
decoded interval sequence. -/
theorem intervalsF_decode [LinearOrder T] {s : List (Tine T)}
    (hc : Canonical s) : TineTree.intervalsF s = some (decode s) := by
  have h := collect_decode (s.length + 2) s none (by omega) (Or.inl ⟨rfl, hc.2⟩)
  simpa [TineTree.intervalsF, TineTree.iter_intervals] using h

theorem cmp_key_congr_left [LinearOrder T] {x y z : Tine T} (hx : x.legal = true)
    (hy : y.legal = true) (hz : z.legal = true) (hkey : x.key = y.key) :
    Tine.cmp x z = Tine.cmp y z := by
  rw [Tine.cmp_eq_key _ _ hx hz, Tine.cmp_eq_key _ _ hy hz, hkey]

theorem cmp_key_congr_right [LinearOrder T] {x y z : Tine T} (hx : x.legal = true)
    (hy : y.legal = true) (hz : z.legal = true) (hkey : x.key = y.key) :
    Tine.cmp z x = Tine.cmp z y := by
  rw [Tine.cmp_eq_key _ _ hz hx, Tine.cmp_eq_key _ _ hz hy, hkey]

theorem pre_nil_of_lt_bot [LinearOrder T] {pre : List (Tine T)}
    (hleg : ∀ p ∈ pre, p.legal = true)
    (h : ∀ p ∈ pre, Tine.cmp p (Tine.Lower Bound.Infinite) = .lt) : pre = [] := by
  cases pre with
  | nil => rfl
  | cons p l =>
    have h2 := h p (by simp)
    rw [Tine.cmp_eq_key _ _ (hleg p (by simp)) (by rfl)] at h2
    exact absurd h2 cmpk_x_bot_ne_lt

theorem rest_nil_of_top_lt [LinearOrder T] {rest : List (Tine T)}
    (hleg : ∀ p ∈ rest, p.legal = true)
    (h : ∀ p ∈ rest, Tine.cmp (Tine.Upper Bound.Infinite) p = .lt) : rest = [] := by
  cases rest with
  | nil => rfl
  | cons p l =>
    have h2 := h p (by simp)
    rw [Tine.cmp_eq_key _ _ (by rfl) (hleg p (by simp))] at h2
    exact absurd h2 cmpk_top_x_ne_lt

theorem cmp_gt_of_lt [LinearOrder T] {p t : Tine T} (hp : p.legal = true)
    (ht : t.legal = true) (h : Tine.cmp p t = .lt) : Tine.cmp t p = .gt := by
  rw [Tine.cmp_eq_key _ _ ht hp, TKey.cmpk_swap]
  rw [Tine.cmp_eq_key _ _ hp ht] at h
  rw [h]
  rfl

/-- Folding `union_in_place` over the decoded interval sequence of the
remaining tines rebuilds the tree, starting from the accumulated
prefix.  The second disjunct tracks the half-rebuilt puncture state,
where the puncture tine is temporarily stored as `Upper(Exclude k)`. -/
theorem fold_union_decode [LinearOrder T] :
    ∀ (n : Nat) (rem pre acc : List (Tine T)),
      rem.length < n →
      SortedT (pre ++ rem) →
      ((acc = pre ∧ tscan false pre = some false ∧ tscan false rem = some false) ∨
        (∃ k rest, rem = Tine.Point (Bound.Exclude k) :: rest ∧
          acc = pre ++ [Tine.Upper (Bound.Exclude k)] ∧
          tscan false pre = some true ∧ tscan true rem = some false)) →
      List.foldlM TineTree.union_in_place acc (decode rem) = some (pre ++ rem) := by
  intro n
  induction n with
  | zero => intro rem pre acc hlen _ _; omega
  | succ n ih =>
    intro rem pre acc hlen hsort hinv
    have hcross : ∀ p ∈ pre, ∀ t ∈ rem, Tine.cmp p t = .lt :=
      (List.pairwise_append.mp hsort).2.2
    have hprem : List.Pairwise (fun a b => Tine.cmp a b = .lt) rem :=
      (List.pairwise_append.mp hsort).2.1
    rcases hinv with ⟨hacc, hpreS, hremS⟩ | ⟨k, rest, rfl, rfl, hpreS, hremS⟩
    · -- mode A
      subst acc
      have hlegpre : ∀ p ∈ pre, p.legal = true := tscan_legal hpreS
      have hlegrem : ∀ t ∈ rem, t.legal = true := tscan_legal hremS
      cases rem with
      | nil => simp [decode]
      | cons t rest =>
        obtain ⟨st1, hstep1, hrest⟩ := tape_step hremS
        have hlegt : t.legal = true := hlegrem t (by simp)
        cases t with
        | Point bp =>
          cases bp with
          | Exclude p => simp [tstep] at hstep1
          | Infinite => simp [tstep] at hstep1
          | Include q =>
            have hst1 : st1 = false := by
              simp [tstep] at hstep1
              first | exact hstep1 | exact hstep1.symm
            subst hst1
            have hpl : ∀ p ∈ pre, Tine.cmp p (Tine.Point (Bound.Include q)) = .lt :=
              fun p hp => hcross p hp _ (by simp)
            have hgl : ∀ p ∈ pre,
                Tine.cmp (Tine.Point (Bound.Include q)) p = .gt :=
              fun p hp => cmp_gt_of_lt (hlegpre p hp) hlegt (hpl p hp)
            have hnl := tscan_last_lower hpreS
            have hstep : TineTree.union_in_place pre (RawInterval.Point q) =
                some (pre ++ [Tine.Point (Bound.Include q)]) := by
              show TineTree.union_point_interval pre (Tine.Point (Bound.Include q)) = _
              exact union_point_fresh hpl hgl hnl
            have hdec : decode (Tine.Point (Bound.Include q) :: rest) =
                RawInterval.Point q :: decode rest := by simp [decode]
            rw [hdec, List.foldlM_cons, hstep]
            show List.foldlM TineTree.union_in_place
              (pre ++ [Tine.Point (Bound.Include q)]) (decode rest) = _
            have hpre2 : tscan false (pre ++ [Tine.Point (Bound.Include q)]) =
                some false := by
              rw [tscan_append, hpreS]
              simp [tscan, tstep]
            have := ih rest (pre ++ [Tine.Point (Bound.Include q)])
              (pre ++ [Tine.Point (Bound.Include q)])
              (by simp only [List.length_cons] at hlen; omega)
              (by simpa using hsort)
              (Or.inl ⟨rfl, hpre2, hrest⟩)
            simpa using this
        | Upper b => simp [tstep] at hstep1
        | Lower bt =>
          have hst1 : st1 = true := by
            simp [tstep] at hstep1
            first | exact hstep1 | exact hstep1.symm
          subst hst1
          cases rest with
          | nil => simp [tscan] at hrest
          | cons u rest2 =>
            obtain ⟨st2, hstep2, hrest2⟩ := tape_step hrest
            have hlegu : u.legal = true := hlegrem u (by simp)
            have htu : Tine.cmp (Tine.Lower bt) u = .lt :=
              (List.pairwise_cons.mp hprem).1 u (by simp)
            cases u with
            | Lower b2 => simp [tstep] at hstep2
            | Upper bu =>
              have hst2 : st2 = false := by
                simp [tstep] at hstep2
                first | exact hstep2 | exact hstep2.symm
              subst hst2
              by_cases hfull : bt = Bound.Infinite ∧ bu = Bound.Infinite
              · -- the full interval
                obtain ⟨rfl, rfl⟩ := hfull
                have hpre0 : pre = [] :=
                  pre_nil_of_lt_bot hlegpre
                    (fun p hp => hcross p hp _ (by simp))
                have hrest0 : rest2 = [] := by
                  refine rest_nil_of_top_lt (fun p hp => hlegrem p (by simp [hp])) ?_
                  intro p hp
                  exact (List.pairwise_cons.mp
                    (List.pairwise_cons.mp hprem).2).1 p hp
                subst hpre0
                subst hrest0
                simp [decode, Tine.into_inner, Tine.is_point_exclude]
                rfl
              · -- a proper interval ending in an Upper tine
                have hnf : (RawInterval.new bt bu).is_full = false :=
                  new_not_full hfull
                have hktu : TKey.cmpk (Tine.Lower bt).key (Tine.Upper bu).key =
                    .lt := by
                  rw [← Tine.cmp_eq_key _ _ hlegt hlegu]
                  exact htu
                have hfr := from_raw_new bt bu hktu
                have hpl : ∀ p ∈ pre, Tine.cmp p (Tine.Lower bt) = .lt :=
                  fun p hp => hcross p hp _ (by simp)
                have hgl : ∀ p ∈ pre, Tine.cmp (Tine.Lower bt) p = .gt :=
                  fun p hp => cmp_gt_of_lt (hlegpre p hp) hlegt (hpl p hp)
                have hgu : ∀ p ∈ pre, Tine.cmp (Tine.Upper bu) p = .gt :=
                  fun p hp => cmp_gt_of_lt (hlegpre p hp) hlegu
                    (hcross p hp _ (by simp))
                have hul : Tine.cmp (Tine.Upper bu) (Tine.Lower bt) = .gt :=
                  cmp_gt_of_lt hlegt hlegu htu
                have hnl := tscan_last_lower hpreS
                have hstep : TineTree.union_in_place pre
                    (RawInterval.new bt bu) =
                    some (pre ++ [Tine.Lower bt, Tine.Upper bu]) := by
                  rw [union_in_place_proper pre hnf hfr]
                  exact union_proper_fresh hpl hgl hgu hul hnl
                have hdec : decode (Tine.Lower bt :: Tine.Upper bu :: rest2) =
                    RawInterval.new bt bu :: decode rest2 := by
                  simp [decode, Tine.into_inner, Tine.is_point_exclude]
                rw [hdec, List.foldlM_cons, hstep]
                show List.foldlM TineTree.union_in_place
                  (pre ++ [Tine.Lower bt, Tine.Upper bu]) (decode rest2) = _
                have hpre2 : tscan false
                    (pre ++ [Tine.Lower bt, Tine.Upper bu]) = some false := by
                  rw [tscan_append, hpreS]
                  simp [tscan, tstep]
                have := ih rest2 (pre ++ [Tine.Lower bt, Tine.Upper bu])
                  (pre ++ [Tine.Lower bt, Tine.Upper bu])
                  (by simp only [List.length_cons] at hlen; omega)
                  (by simpa using hsort)
                  (Or.inl ⟨rfl, hpre2, hrest2⟩)
                simpa using this
            | Point bp2 =>
              cases bp2 with
              | Include m => simp [tstep] at hstep2
              | Infinite => simp [tstep] at hstep2
              | Exclude m =>
                have hst2 : st2 = true := by
                  simp [tstep] at hstep2
                  first | exact hstep2 | exact hstep2.symm
                subst hst2
                have hnf : (RawInterval.new bt (Bound.Exclude m)).is_full =
                    false := new_not_full (by simp)
                have hktu : TKey.cmpk (Tine.Lower bt).key
                    (Tine.Upper (Bound.Exclude m)).key = .lt := by
                  have h2 : TKey.cmpk (Tine.Lower bt).key
                      (Tine.Point (Bound.Exclude m)).key = .lt := by
                    rw [← Tine.cmp_eq_key _ _ hlegt hlegu]
                    exact htu
                  exact h2
                have hfr := from_raw_new bt (Bound.Exclude m) hktu
                have hpl : ∀ p ∈ pre, Tine.cmp p (Tine.Lower bt) = .lt :=
                  fun p hp => hcross p hp _ (by simp)
                have hgl : ∀ p ∈ pre, Tine.cmp (Tine.Lower bt) p = .gt :=
                  fun p hp => cmp_gt_of_lt (hlegpre p hp) hlegt (hpl p hp)
                have hgu : ∀ p ∈ pre,
                    Tine.cmp (Tine.Upper (Bound.Exclude m)) p = .gt := by
                  intro p hp
                  have h2 : Tine.cmp (Tine.Point (Bound.Exclude m)) p = .gt :=
                    cmp_gt_of_lt (hlegpre p hp) hlegu (hcross p hp _ (by simp))
                  rw [← h2]
                  exact cmp_key_congr_left (by rfl) hlegu (hlegpre p hp) rfl
                have hul : Tine.cmp (Tine.Upper (Bound.Exclude m))
                    (Tine.Lower bt) = .gt := by
                  have h2 : Tine.cmp (Tine.Point (Bound.Exclude m))
                      (Tine.Lower bt) = .gt := cmp_gt_of_lt hlegt hlegu htu
                  rw [← h2]
                  exact cmp_key_congr_left (by rfl) hlegu hlegt rfl
                have hnl := tscan_last_lower hpreS
                have hstep : TineTree.union_in_place pre
                    (RawInterval.new bt (Bound.Exclude m)) =
                    some (pre ++ [Tine.Lower bt,
                      Tine.Upper (Bound.Exclude m)]) := by
                  rw [union_in_place_proper pre hnf hfr]
                  exact union_proper_fresh hpl hgl hgu hul hnl
                have hdec : decode (Tine.Lower bt ::
                    Tine.Point (Bound.Exclude m) :: rest2) =
                    RawInterval.new bt (Bound.Exclude m) ::
                      decode (Tine.Point (Bound.Exclude m) :: rest2) := by
                  simp [decode, Tine.into_inner, Tine.is_point_exclude]
                rw [hdec, List.foldlM_cons, hstep]
                show List.foldlM TineTree.union_in_place
                  (pre ++ [Tine.Lower bt, Tine.Upper (Bound.Exclude m)])
                  (decode (Tine.Point (Bound.Exclude m) :: rest2)) = _
                have hpre2 : tscan false (pre ++ [Tine.Lower bt]) =
                    some true := by
                  rw [tscan_append, hpreS]
                  simp [tscan, tstep]
                have := ih (Tine.Point (Bound.Exclude m) :: rest2)
                  (pre ++ [Tine.Lower bt])
                  (pre ++ [Tine.Lower bt, Tine.Upper (Bound.Exclude m)])
                  (by simp only [List.length_cons] at hlen ⊢; omega)
                  (by simpa using hsort)
                  (Or.inr ⟨m, rest2, rfl, by simp, hpre2, hrest⟩)
                simpa using this
    · -- mode B: the puncture is half-rebuilt as Upper(Exclude k)
      have hlegpre : ∀ p ∈ pre, p.legal = true := tscan_legal hpreS
      have hlegrem : ∀ t ∈ Tine.Point (Bound.Exclude k) :: rest, t.legal = true :=
        tscan_legal hremS
      obtain ⟨st1, hstep1, hrest⟩ := tape_step hremS
      have hst1 : st1 = true := by
        simp [tstep] at hstep1
        first | exact hstep1 | exact hstep1.symm
      subst hst1
      cases rest with
      | nil => simp [tscan] at hrest
      | cons u rest2 =>
        obtain ⟨st2, hstep2, hrest2⟩ := tape_step hrest
        have hlegu : u.legal = true := hlegrem u (by simp)
        have hlegk : (Tine.Point (Bound.Exclude k)).legal = true := rfl
        have hku : Tine.cmp (Tine.Point (Bound.Exclude k)) u = .lt :=
          (List.pairwise_cons.mp hprem).1 u (by simp)
        have hpl : ∀ p ∈ pre, Tine.cmp p (Tine.Lower (Bound.Exclude k)) = .lt := by
          intro p hp
          have h2 : Tine.cmp p (Tine.Point (Bound.Exclude k)) = .lt :=
            hcross p hp _ (by simp)
          rw [← h2]
          exact cmp_key_congr_right (by rfl) hlegk (hlegpre p hp) rfl
        have hgl : ∀ p ∈ pre, Tine.cmp (Tine.Lower (Bound.Exclude k)) p = .gt :=
          fun p hp => cmp_gt_of_lt (hlegpre p hp) (by rfl) (hpl p hp)
        have hgp : ∀ p ∈ pre, Tine.cmp (Tine.Point (Bound.Exclude k)) p = .gt :=
          fun p hp => cmp_gt_of_lt (hlegpre p hp) hlegk (hcross p hp _ (by simp))
        have hll := tscan_last_lower hpreS
        cases u with
        | Lower b2 => simp [tstep] at hstep2
        | Upper bu =>
          have hst2 : st2 = false := by
            simp [tstep] at hstep2
            first | exact hstep2 | exact hstep2.symm
          subst hst2
          have hnf : (RawInterval.new (Bound.Exclude k) bu).is_full = false :=
            new_not_full (by simp)
          have hktu : TKey.cmpk (Tine.Lower (Bound.Exclude k)).key
              (Tine.Upper bu).key = .lt := by
            have h2 := hku
            rw [Tine.cmp_eq_key _ _ hlegk hlegu] at h2
            exact h2
          have hfr := from_raw_new (Bound.Exclude k) bu hktu
          have hgu : ∀ p ∈ pre, Tine.cmp (Tine.Upper bu) p = .gt :=
            fun p hp => cmp_gt_of_lt (hlegpre p hp) hlegu
              (hcross p hp _ (by simp))
          have hgu2 : Tine.cmp (Tine.Upper bu)
              (Tine.Point (Bound.Exclude k)) = .gt :=
            cmp_gt_of_lt hlegk hlegu hku
          have hstep : TineTree.union_in_place
              (pre ++ [Tine.Upper (Bound.Exclude k)])
              (RawInterval.new (Bound.Exclude k) bu) =
              some (pre ++ [Tine.Point (Bound.Exclude k), Tine.Upper bu]) := by
            rw [union_in_place_proper _ hnf hfr]
            exact union_proper_puncture hpl hgl hgp hgu hgu2 hll
          have hdec : decode (Tine.Point (Bound.Exclude k) ::
              Tine.Upper bu :: rest2) =
              RawInterval.new (Bound.Exclude k) bu :: decode rest2 := by
            simp [decode, Tine.into_inner, Tine.is_point_exclude]
          rw [hdec, List.foldlM_cons, hstep]
          show List.foldlM TineTree.union_in_place
            (pre ++ [Tine.Point (Bound.Exclude k), Tine.Upper bu])
            (decode rest2) = _
          have hpre2 : tscan false
              (pre ++ [Tine.Point (Bound.Exclude k), Tine.Upper bu]) =
              some false := by
            rw [tscan_append, hpreS]
            simp [tscan, tstep]
          have := ih rest2
            (pre ++ [Tine.Point (Bound.Exclude k), Tine.Upper bu])
            (pre ++ [Tine.Point (Bound.Exclude k), Tine.Upper bu])
            (by simp only [List.length_cons] at hlen; omega)
            (by simpa using hsort)
            (Or.inl ⟨rfl, hpre2, hrest2⟩)
          simpa using this
        | Point bp2 =>
          cases bp2 with
          | Include m => simp [tstep] at hstep2
          | Infinite => simp [tstep] at hstep2
          | Exclude m =>
            have hst2 : st2 = true := by
              simp [tstep] at hstep2
              first | exact hstep2 | exact hstep2.symm
            subst hst2
            have hnf : (RawInterval.new (Bound.Exclude k)
                (Bound.Exclude m)).is_full = false := new_not_full (by simp)
            have hktu : TKey.cmpk (Tine.Lower (Bound.Exclude k)).key
                (Tine.Upper (Bound.Exclude m)).key = .lt := by
              have h2 := hku
              rw [Tine.cmp_eq_key _ _ hlegk hlegu] at h2
              exact h2
            have hfr := from_raw_new (Bound.Exclude k) (Bound.Exclude m) hktu
            have hgu : ∀ p ∈ pre,
                Tine.cmp (Tine.Upper (Bound.Exclude m)) p = .gt := by
              intro p hp
              have h2 : Tine.cmp (Tine.Point (Bound.Exclude m)) p = .gt :=
                cmp_gt_of_lt (hlegpre p hp) hlegu (hcross p hp _ (by simp))
              rw [← h2]
              exact cmp_key_congr_left (by rfl) hlegu (hlegpre p hp) rfl
            have hgu2 : Tine.cmp (Tine.Upper (Bound.Exclude m))
                (Tine.Point (Bound.Exclude k)) = .gt := by
              have h2 : Tine.cmp (Tine.Point (Bound.Exclude m))
                  (Tine.Point (Bound.Exclude k)) = .gt :=
                cmp_gt_of_lt hlegk hlegu hku
              rw [← h2]
              exact cmp_key_congr_left (by rfl) hlegu hlegk rfl
            have hstep : TineTree.union_in_place
                (pre ++ [Tine.Upper (Bound.Exclude k)])
                (RawInterval.new (Bound.Exclude k) (Bound.Exclude m)) =
                some (pre ++ [Tine.Point (Bound.Exclude k),
                  Tine.Upper (Bound.Exclude m)]) := by
              rw [union_in_place_proper _ hnf hfr]
              exact union_proper_puncture hpl hgl hgp hgu hgu2 hll
            have hdec : decode (Tine.Point (Bound.Exclude k) ::
                Tine.Point (Bound.Exclude m) :: rest2) =
                RawInterval.new (Bound.Exclude k) (Bound.Exclude m) ::
                  decode (Tine.Point (Bound.Exclude m) :: rest2) := by
              simp [decode, Tine.into_inner, Tine.is_point_exclude]
            rw [hdec, List.foldlM_cons, hstep]
            show List.foldlM TineTree.union_in_place
              (pre ++ [Tine.Point (Bound.Exclude k),
                Tine.Upper (Bound.Exclude m)])
              (decode (Tine.Point (Bound.Exclude m) :: rest2)) = _
            have hpre2 : tscan false
                (pre ++ [Tine.Point (Bound.Exclude k)]) = some true := by
              rw [tscan_append, hpreS]
              simp [tscan, tstep]
            have := ih (Tine.Point (Bound.Exclude m) :: rest2)
              (pre ++ [Tine.Point (Bound.Exclude k)])
              (pre ++ [Tine.Point (Bound.Exclude k),
                Tine.Upper (Bound.Exclude m)])
              (by simp only [List.length_cons] at hlen ⊢; omega)
              (by simpa using hsort)
              (Or.inr ⟨m, rest2, rfl, by simp, hpre2, hrest⟩)
            simpa using this

/-- C7: round-trip — collecting `iter_intervals` of a canonical tree and
folding the resulting `RawInterval`s back into a fresh tree with
`union_in_place` (the `FromIterator` construction) reproduces the tree. -/
theorem claim_C7_round_trip [LinearOrder T] (s : List (Tine T)) (hc : Canonical s) :
    ∃ ivs, TineTree.intervalsF s = some ivs ∧
      TineTree.from_intervals ivs = some s := by
  refine ⟨decode s, intervalsF_decode hc, ?_⟩
  have h := fold_union_decode (s.length + 1) s [] [] (by omega)
    (by simpa using hc.1) (Or.inl ⟨rfl, rfl, hc.2⟩)
  simpa [TineTree.from_intervals] using h

/-- Witness for C7 at the concrete canonical punctured tree
`(0, 5) ∪ (5, 10)` over the integers. -/
theorem claim_C7_witness :
    ∃ ivs,
      TineTree.intervalsF [Tine.Lower (Bound.Exclude (0 : ℤ)),
        Tine.Point (Bound.Exclude 5), Tine.Upper (Bound.Exclude 10)] = some ivs ∧
      TineTree.from_intervals ivs =
        some [Tine.Lower (Bound.Exclude 0), Tine.Point (Bound.Exclude 5),
          Tine.Upper (Bound.Exclude 10)] :=
  claim_C7_round_trip
    [Tine.Lower (Bound.Exclude (0 : ℤ)), Tine.Point (Bound.Exclude 5),
      Tine.Upper (Bound.Exclude 10)] (by decide)
